import Mathlib

/-!
# Verification of the SOLOMA moderation pipeline

Shallow embedding of the core decision pipeline of the SOLOMA repository:

* `second_try_SOLOMA/agents/agent_moderator.py` — registry matching and
  message classification (`ModeratorAgent.analyze_message`),
* `second_try_SOLOMA/agents/agent_spam_detector.py` — spam similarity detector,
* `test/analyzers/heuristic.py`, `test/analyzers/multi_level.py`,
  `test/services/context_tracker.py` — heuristic scorer, escalation policy and
  contextual mention tracker.

Text is modelled as `List Char`.  Python floats are modelled as exact
rationals (`ℚ`); all numeric constants of the source (0.1, 0.05, 0.3, 0.6,
0.8, 0.85, 1.3) are dyadic/decimal rationals written as fractions.
The two LLM endpoints are external collaborators and are modelled as
oracle parameters: a call either fails (the Python exception path) or
returns an arbitrary response string.
-/

namespace Soloma

/- Batteries marks the `Rat` field operations `@[irreducible]`, which blocks
`decide`/`rfl` evaluation of concrete rational arithmetic; restore the
default reducibility locally so that concrete runs of the pipeline can be
checked by evaluation. -/
attribute [local semireducible] Rat.mul Rat.inv Rat.add Rat.sub

/-! ## Character classes

Python's `str.lower`, `\w`, `\s` and the source's regex character classes,
restricted to the alphabets the program works with (ASCII and Cyrillic). -/

def isAsciiLower (c : Char) : Bool := 'a' ≤ c && c ≤ 'z'

def isAsciiUpper (c : Char) : Bool := 'A' ≤ c && c ≤ 'Z'

def isDigitC (c : Char) : Bool := '0' ≤ c && c ≤ '9'

/-- Lower-case Cyrillic range `а`–`я` (U+0430–U+044F). -/
def isCyrLowerBase (c : Char) : Bool := 'а' ≤ c && c ≤ 'я'

/-- Upper-case Cyrillic range `А`–`Я` (U+0410–U+042F). -/
def isCyrUpperBase (c : Char) : Bool := 'А' ≤ c && c ≤ 'Я'

/-- The regex class `[А-Яа-яёЁ]` used throughout `agent_moderator.py`. -/
def isCyr (c : Char) : Bool := isCyrLowerBase c || isCyrUpperBase c || c = 'ё' || c = 'Ё'

/-- Python `str.lower` on the alphabets in scope: ASCII and Cyrillic
(`А`–`Я` is 32 code points above `а`–`я`, like ASCII; `Ё` is special). -/
def toLowerC (c : Char) : Char :=
  if isAsciiUpper c || isCyrUpperBase c then Char.ofNat (c.toNat + 32)
  else if c = 'Ё' then 'ё' else c

/-- Python `\s` (ASCII part): space, tab, newline, CR, vertical tab, form feed. -/
def isSpaceC (c : Char) : Bool :=
  c = ' ' || c = '\t' || c = '\n' || c = '\r' || c = '\x0b' || c = '\x0c'

/-- Python `\w` (word character, for `\b` boundaries), restricted to the
alphabets in scope: ASCII alphanumerics, underscore, Cyrillic letters. -/
def isWordC (c : Char) : Bool :=
  isAsciiLower c || isAsciiUpper c || isDigitC c || c = '_' || isCyr c

/-- The token class `[А-Яа-яёЁA-Za-z0-9\-]` of `agent_moderator.py`. -/
def isTokenC (c : Char) : Bool :=
  isCyr c || isAsciiLower c || isAsciiUpper c || isDigitC c || c = '-'

/-! ## Python string primitives -/

/-- Python `str.lower`. -/
def lowerStr (l : List Char) : List Char := l.map toLowerC

/-- `str.replace('ё', 'е')` (applied after lowering in `_normalize`). -/
def replaceYo (l : List Char) : List Char :=
  l.map (fun c => if c = 'ё' then 'е' else c)

/-- `str.replace('  ', ' ')`: replaces non-overlapping double spaces left to
right by single spaces (it does not fully collapse longer runs). -/
def collapsePairs : List Char → List Char
  | ' ' :: ' ' :: rest => ' ' :: collapsePairs rest
  | c :: rest => c :: collapsePairs rest
  | [] => []

/-- Python `str.strip()`. -/
def stripChars (l : List Char) : List Char :=
  ((l.dropWhile isSpaceC).reverse.dropWhile isSpaceC).reverse

/-- `ModeratorAgent._normalize`:
`s.lower().replace('ё', 'е').replace('  ', ' ').strip()`. -/
def pyNormalize (l : List Char) : List Char :=
  stripChars (collapsePairs (replaceYo (lowerStr l)))

/-- Decompose a string into the maximal runs of characters satisfying `p`
(the model of `re.findall(r"[class]+", s)` for a character class, and of
`str.split()` with `p` = "not whitespace").  Structural accumulator version
so that the kernel can evaluate it. -/
def runsOfAux (p : Char → Bool) : List Char → List Char → List (List Char)
  | [], acc => if acc.isEmpty then [] else [acc.reverse]
  | c :: rest, acc =>
    if p c then runsOfAux p rest (c :: acc)
    else if acc.isEmpty then runsOfAux p rest []
    else acc.reverse :: runsOfAux p rest []

def runsOf (p : Char → Bool) (l : List Char) : List (List Char) := runsOfAux p l []

/-- `re.findall(r"[А-Яа-яёЁA-Za-z0-9\-]+", s)`. -/
def tokenizeMsg (l : List Char) : List (List Char) := runsOf isTokenC l

/-- Python `str.split()` (split on whitespace, dropping empty parts). -/
def splitWs (l : List Char) : List (List Char) := runsOf (fun c => !isSpaceC c) l

/-- Substring occurrence test at a fixed position. -/
def matchAt (pat l : List Char) (i : Nat) : Bool := pat.isPrefixOf (l.drop i)

/-- Python `needle in haystack` for strings (substring containment). -/
def isSub (pat l : List Char) : Bool :=
  (List.range (l.length + 1)).any (fun i => matchAt pat l i)

/-- Is position `i` (0 ≤ i ≤ length) a regex `\b` word boundary? -/
def wordAt (l : List Char) (i : Nat) : Bool :=
  match l.get? i with
  | some c => isWordC c
  | none => false

def boundaryAt (l : List Char) (i : Nat) : Bool :=
  (if i = 0 then false else wordAt l (i - 1)) != wordAt l i

/-- Model of `re.search(r"\b" + t0 + r"\b.*\b" + t1 + r"\b", text)` for
word-character tokens `t0`, `t1` (line 189 of `agent_moderator.py`):
an occurrence of `t0` at word boundaries followed, later and on the same
line (`.` does not match a newline), by an occurrence of `t1` at word
boundaries. -/
def orderedPairMatch (t0 t1 l : List Char) : Bool :=
  (List.range (l.length + 1)).any fun i =>
    matchAt t0 l i && boundaryAt l i && boundaryAt l (i + t0.length) &&
    ((List.range (l.length + 1)).any fun j =>
      decide (i + t0.length ≤ j) && matchAt t1 l j && boundaryAt l j &&
      boundaryAt l (j + t1.length) &&
      ((l.drop (i + t0.length)).take (j - (i + t0.length))).all (fun c => c ≠ '\n'))

/-! ## difflib.SequenceMatcher (with `isjunk=None` and the default `autojunk=True`)

`SpamDetectorAgent._calculate_similarity` and the fuzzy alias match both use
`difflib.SequenceMatcher(None, a, b).ratio()`.  The algorithm: `__chain_b`
indexes the second string in `b2j` and, since `autojunk` defaults to true,
purges its "popular" characters (when `len(b) >= 200`, those with more than
`len(b) // 100 + 1` occurrences); `find_longest_match` runs the `j2len`
dynamic program over the purged index (strict improvement only, so the
leftmost best block wins) and then extends the found block over equal
characters on both sides — the extension loops only skip `isjunk`-junk, and
`bjunk` is empty with `isjunk=None`, so they extend over popular characters
too; `get_matching_blocks` recurses on the parts to the left and to the
right of the block (with `b2j`, hence the purge, fixed once for the whole
string), and `ratio()` returns `2 * (total matched) / (len(a) + len(b))`. -/

/-- The `autojunk` popularity test of `SequenceMatcher.__chain_b`: when
`len(b) >= 200`, characters with more than `ntest = len(b) // 100 + 1`
occurrences in `b` are dropped from `b2j`. -/
def isPopular (b : List Char) (c : Char) : Bool :=
  decide (200 ≤ b.length) && decide (b.length / 100 + 1 < b.count c)

/-- Length of the common prefix of two lists. -/
def commonPrefixLen : List Char → List Char → Nat
  | a :: as, b :: bs => if a = b then commonPrefixLen as bs + 1 else 0
  | _, _ => 0

/-- Length of the common prefix of two lists in which every consumed
character of the second list must also survive the purge (`pj c = false`):
popular characters of `b` never take part in the `j2len` dynamic program. -/
def commonPrefixLenP (pj : Char → Bool) : List Char → List Char → Nat
  | a :: as, b :: bs =>
    if a = b ∧ pj b = false then commonPrefixLenP pj as bs + 1 else 0
  | _, _ => 0

/-- Length of the longest common block over the purged index ending exactly
at positions `i` of `a` and `j` of `b` (the `j2len` dynamic program of
`find_longest_match`). -/
def runLenP (pj : Char → Bool) (a b : List Char) (i j : Nat) : Nat :=
  commonPrefixLenP pj (a.take (i + 1)).reverse (b.take (j + 1)).reverse

/-- One update step of the dynamic program: record the block ending at
`(i, j)` iff it is strictly longer than the best so far (scan order `i` asc,
`j` asc, matching CPython's tie-breaking: lowest `i`, then lowest `j`). -/
def flmUpdP (pj : Char → Bool) (a b : List Char) (i : Nat)
    (best : Nat × Nat × Nat) (j : Nat) : Nat × Nat × Nat :=
  if best.2.2 < runLenP pj a b i j then
    (i + 1 - runLenP pj a b i j, j + 1 - runLenP pj a b i j, runLenP pj a b i j)
  else best

def flmInnerP (pj : Char → Bool) (a b : List Char) (best : Nat × Nat × Nat)
    (i : Nat) : Nat × Nat × Nat :=
  (List.range b.length).foldl (flmUpdP pj a b i) best

/-- The dynamic-programming part of `find_longest_match` over the whole
strings: the best `(besti, bestj, bestsize)` over the purged index. -/
def flmDpP (pj : Char → Bool) (a b : List Char) : Nat × Nat × Nat :=
  (List.range a.length).foldl (flmInnerP pj a b) (0, 0, 0)

/-- The left extension loop of `find_longest_match`: with `isjunk=None` the
junk set `bjunk` is empty, so the loop extends over every pair of equal
characters before the block, popular or not; its step count is the length
of the common suffix of the two prefixes before the block. -/
def flmLext (pj : Char → Bool) (a b : List Char) : Nat :=
  commonPrefixLen (a.take (flmDpP pj a b).1).reverse
    (b.take (flmDpP pj a b).2.1).reverse

/-- The right extension loop of `find_longest_match`. -/
def flmRext (pj : Char → Bool) (a b : List Char) : Nat :=
  commonPrefixLen (a.drop ((flmDpP pj a b).1 + (flmDpP pj a b).2.2))
    (b.drop ((flmDpP pj a b).2.1 + (flmDpP pj a b).2.2))

/-- `SequenceMatcher.find_longest_match` over the whole strings: the dynamic
program on the purged index followed by the two extension loops (the second,
junk-extension pair of loops never fires since `bjunk` is empty). -/
def flmP (pj : Char → Bool) (a b : List Char) : Nat × Nat × Nat :=
  ((flmDpP pj a b).1 - flmLext pj a b,
   (flmDpP pj a b).2.1 - flmLext pj a b,
   (flmDpP pj a b).2.2 + flmLext pj a b + flmRext pj a b)

/-- Total size of all matching blocks (the `matches` count used by
`ratio()`), fuelled so that the kernel can evaluate it; `fuel ≥ a.length`
is always sufficient.  The purged index `pj` is built once from the whole
second string and shared by all recursive calls, exactly as `b2j` is in
difflib. -/
def matchTotalFP (pj : Char → Bool) : Nat → List Char → List Char → Nat
  | 0, _, _ => 0
  | fuel + 1, a, b =>
    if (flmP pj a b).2.2 = 0 then 0
    else
      (flmP pj a b).2.2 +
        matchTotalFP pj fuel (a.take (flmP pj a b).1) (b.take (flmP pj a b).2.1) +
        matchTotalFP pj fuel (a.drop ((flmP pj a b).1 + (flmP pj a b).2.2))
          (b.drop ((flmP pj a b).2.1 + (flmP pj a b).2.2))

def matchTotalP (pj : Char → Bool) (a b : List Char) : Nat :=
  matchTotalFP pj a.length a b

/-- The `matches` total of `SequenceMatcher(None, a, b)` with the popularity
purge taken from the second string. -/
def matchTotal (a b : List Char) : Nat := matchTotalP (isPopular b) a b

/-- `SequenceMatcher.ratio()`: `2 * matches / (len(a) + len(b))`
(and `1.0` when both strings are empty, as in `difflib._calculate_ratio`). -/
def simScore (a b : List Char) : ℚ :=
  if a.length + b.length = 0 then 1
  else (2 * matchTotal a b : ℚ) / (a.length + b.length : ℚ)

/-! ## Properties of the SequenceMatcher model -/

theorem cpl_le_left : ∀ a b : List Char, commonPrefixLen a b ≤ a.length := by
  intro a
  induction a with
  | nil => intro b; cases b <;> simp [commonPrefixLen]
  | cons x xs ih =>
    intro b
    cases b with
    | nil => simp [commonPrefixLen]
    | cons y ys =>
      simp only [commonPrefixLen, List.length_cons]
      split
      · exact Nat.succ_le_succ (ih ys)
      · omega

theorem cpl_le_right : ∀ a b : List Char, commonPrefixLen a b ≤ b.length := by
  intro a
  induction a with
  | nil => intro b; cases b <;> simp [commonPrefixLen]
  | cons x xs ih =>
    intro b
    cases b with
    | nil => simp [commonPrefixLen]
    | cons y ys =>
      simp only [commonPrefixLen, List.length_cons]
      split
      · exact Nat.succ_le_succ (ih ys)
      · omega

theorem cpl_take : ∀ a b : List Char,
    a.take (commonPrefixLen a b) = b.take (commonPrefixLen a b) := by
  intro a
  induction a with
  | nil => intro b; cases b <;> simp [commonPrefixLen]
  | cons x xs ih =>
    intro b
    cases b with
    | nil => simp [commonPrefixLen]
    | cons y ys =>
      simp only [commonPrefixLen]
      split
      · rename_i hxy
        simp only [List.take_succ_cons, hxy]
        rw [ih ys]
      · simp

theorem cpl_self : ∀ a : List Char, commonPrefixLen a a = a.length := by
  intro a
  induction a with
  | nil => simp [commonPrefixLen]
  | cons x xs ih => simp [commonPrefixLen, ih]

theorem cpl_nil_left (b : List Char) : commonPrefixLen [] b = 0 := by
  cases b <;> rfl

theorem cplP_le_left (pj : Char → Bool) :
    ∀ a b : List Char, commonPrefixLenP pj a b ≤ a.length := by
  intro a
  induction a with
  | nil => intro b; cases b <;> simp [commonPrefixLenP]
  | cons x xs ih =>
    intro b
    cases b with
    | nil => simp [commonPrefixLenP]
    | cons y ys =>
      simp only [commonPrefixLenP, List.length_cons]
      split
      · exact Nat.succ_le_succ (ih ys)
      · omega

theorem cplP_le_right (pj : Char → Bool) :
    ∀ a b : List Char, commonPrefixLenP pj a b ≤ b.length := by
  intro a
  induction a with
  | nil => intro b; cases b <;> simp [commonPrefixLenP]
  | cons x xs ih =>
    intro b
    cases b with
    | nil => simp [commonPrefixLenP]
    | cons y ys =>
      simp only [commonPrefixLenP, List.length_cons]
      split
      · exact Nat.succ_le_succ (ih ys)
      · omega

theorem cplP_take (pj : Char → Bool) : ∀ a b : List Char,
    a.take (commonPrefixLenP pj a b) = b.take (commonPrefixLenP pj a b) := by
  intro a
  induction a with
  | nil => intro b; cases b <;> simp [commonPrefixLenP]
  | cons x xs ih =>
    intro b
    cases b with
    | nil => simp [commonPrefixLenP]
    | cons y ys =>
      simp only [commonPrefixLenP]
      split
      · rename_i hxy
        simp only [List.take_succ_cons, hxy.1]
        rw [ih ys]
      · simp

/-- The purge tests the characters of the second list, and a filtered common
prefix has equal characters on both sides, so it is also a filtered common
prefix of the first list with itself. -/
theorem cplP_le_diagL (pj : Char → Bool) :
    ∀ a b : List Char, commonPrefixLenP pj a b ≤ commonPrefixLenP pj a a := by
  intro a
  induction a with
  | nil => intro b; cases b <;> simp [commonPrefixLenP]
  | cons x xs ih =>
    intro b
    cases b with
    | nil => simp [commonPrefixLenP]
    | cons y ys =>
      simp only [commonPrefixLenP]
      split
      · rename_i hxy
        rw [if_pos ⟨trivial, by rw [hxy.1]; exact hxy.2⟩]
        exact Nat.succ_le_succ (ih ys)
      · exact Nat.zero_le _

theorem cplP_le_diagR (pj : Char → Bool) :
    ∀ a b : List Char, commonPrefixLenP pj a b ≤ commonPrefixLenP pj b b := by
  intro a
  induction a with
  | nil => intro b; cases b <;> simp [commonPrefixLenP]
  | cons x xs ih =>
    intro b
    cases b with
    | nil => simp [commonPrefixLenP]
    | cons y ys =>
      simp only [commonPrefixLenP]
      split
      · rename_i hxy
        rw [if_pos ⟨trivial, hxy.2⟩]
        exact Nat.succ_le_succ (ih ys)
      · exact Nat.zero_le _

/-- `l.reverse.take k` is the reversal of the last `k` elements of `l`. -/
theorem revTake (l : List Char) (k : Nat) :
    l.reverse.take k = (l.drop (l.length - k)).reverse := by
  have h : (l.reverse.take k).reverse = l.drop (l.length - k) := by
    rw [List.reverse_take]
    simp
  calc l.reverse.take k = ((l.reverse.take k).reverse).reverse := by simp
    _ = (l.drop (l.length - k)).reverse := by rw [h]

/-- Matching reversed prefixes give matching segments: if the reversals of
`a.take i` and `b.take j` agree on their first `k` elements then the last
`k` elements of those prefixes agree in place. -/
theorem revtake_block_eq (a b : List Char) (i j k : Nat) (hi : i ≤ a.length)
    (hj : j ≤ b.length) (hk1 : k ≤ i) (hk2 : k ≤ j)
    (h : (a.take i).reverse.take k = (b.take j).reverse.take k) :
    (a.drop (i - k)).take k = (b.drop (j - k)).take k := by
  rw [revTake, revTake] at h
  have hla : (a.take i).length = i := by simp only [List.length_take]; omega
  have hlb : (b.take j).length = j := by simp only [List.length_take]; omega
  rw [hla, hlb] at h
  have h2 := congrArg List.reverse h
  simp only [List.reverse_reverse] at h2
  rw [List.drop_take, List.drop_take] at h2
  have ea : i - (i - k) = k := by omega
  have eb : j - (j - k) = k := by omega
  rw [ea, eb] at h2
  exact h2

theorem runLenP_le_left (pj : Char → Bool) (a b : List Char) (i j : Nat) :
    runLenP pj a b i j ≤ i + 1 := by
  have h := cplP_le_left pj (a.take (i + 1)).reverse (b.take (j + 1)).reverse
  simp only [List.length_reverse, List.length_take] at h
  exact le_trans h (min_le_left _ _)

theorem runLenP_le_right (pj : Char → Bool) (a b : List Char) (i j : Nat) :
    runLenP pj a b i j ≤ j + 1 := by
  have h := cplP_le_right pj (a.take (i + 1)).reverse (b.take (j + 1)).reverse
  simp only [List.length_reverse, List.length_take] at h
  exact le_trans h (min_le_left _ _)

/-- The block found by `runLenP` really is a matching block of `a` and `b`. -/
theorem runLenP_block (pj : Char → Bool) (a b : List Char) (i j : Nat)
    (hi : i < a.length) (hj : j < b.length) :
    (a.drop (i + 1 - runLenP pj a b i j)).take (runLenP pj a b i j)
      = (b.drop (j + 1 - runLenP pj a b i j)).take (runLenP pj a b i j) :=
  revtake_block_eq a b (i + 1) (j + 1) (runLenP pj a b i j) (by omega) (by omega)
    (runLenP_le_left pj a b i j) (runLenP_le_right pj a b i j)
    (cplP_take pj (a.take (i + 1)).reverse (b.take (j + 1)).reverse)

/-- Invariant of `find_longest_match`: a nonzero best triple `(i, j, k)`
denotes an in-bounds matching block of size `k`. -/
def flmOK (a b : List Char) (t : Nat × Nat × Nat) : Prop :=
  t.2.2 ≠ 0 → t.1 + t.2.2 ≤ a.length ∧ t.2.1 + t.2.2 ≤ b.length ∧
    (a.drop t.1).take t.2.2 = (b.drop t.2.1).take t.2.2

/-- Invariant of the dynamic program: additionally, a best of size zero can
only be the starting `(0, 0, 0)`, since every update has size at least 1. -/
def dpInv (a b : List Char) (t : Nat × Nat × Nat) : Prop :=
  (t.2.2 = 0 → t = (0, 0, 0)) ∧ flmOK a b t

theorem flmUpdP_inv {pj : Char → Bool} {a b : List Char} {i j : Nat}
    (hi : i < a.length) (hj : j < b.length) {best : Nat × Nat × Nat}
    (h : dpInv a b best) : dpInv a b (flmUpdP pj a b i best j) := by
  unfold flmUpdP
  split
  · rename_i hlt
    constructor
    · intro hz
      exfalso
      have hz' : runLenP pj a b i j = 0 := hz
      omega
    · intro _
      have hk1 : runLenP pj a b i j ≤ i + 1 := runLenP_le_left pj a b i j
      have hk2 : runLenP pj a b i j ≤ j + 1 := runLenP_le_right pj a b i j
      refine ⟨by simp; omega, by simp; omega, ?_⟩
      exact runLenP_block pj a b i j hi hj
  · exact h

theorem foldl_flmUpdP_inv {pj : Char → Bool} {a b : List Char} {i : Nat}
    (hi : i < a.length) :
    ∀ js : List Nat, (∀ j ∈ js, j < b.length) →
      ∀ best : Nat × Nat × Nat, dpInv a b best →
        dpInv a b (js.foldl (flmUpdP pj a b i) best) := by
  intro js
  induction js with
  | nil => intro _ best h; exact h
  | cons j js ih =>
    intro hmem best h
    simp only [List.foldl_cons]
    exact ih (fun x hx => hmem x (List.mem_cons_of_mem _ hx))
      _ (flmUpdP_inv hi (hmem j (List.mem_cons_self _ _)) h)

theorem flmInnerP_inv {pj : Char → Bool} {a b : List Char} {i : Nat}
    (hi : i < a.length) {best : Nat × Nat × Nat} (h : dpInv a b best) :
    dpInv a b (flmInnerP pj a b best i) := by
  unfold flmInnerP
  exact foldl_flmUpdP_inv hi _ (fun j hj => List.mem_range.mp hj) best h

theorem foldl_flmInnerP_inv {pj : Char → Bool} {a b : List Char} :
    ∀ is : List Nat, (∀ i ∈ is, i < a.length) →
      ∀ best : Nat × Nat × Nat, dpInv a b best →
        dpInv a b (is.foldl (flmInnerP pj a b) best) := by
  intro is
  induction is with
  | nil => intro _ best h; exact h
  | cons i is ih =>
    intro hmem best h
    simp only [List.foldl_cons]
    exact ih (fun x hx => hmem x (List.mem_cons_of_mem _ hx))
      _ (flmInnerP_inv (hmem i (List.mem_cons_self _ _)) h)

theorem flmDpP_inv (pj : Char → Bool) (a b : List Char) :
    dpInv a b (flmDpP pj a b) := by
  unfold flmDpP
  exact foldl_flmInnerP_inv _ (fun i hi => List.mem_range.mp hi) _
    ⟨fun _ => rfl, fun h => absurd rfl h⟩

/-- The extension loops preserve the invariant: the extended triple of
`find_longest_match` is still an in-bounds matching block. -/
theorem flmP_ok (pj : Char → Bool) (a b : List Char) : flmOK a b (flmP pj a b) := by
  obtain ⟨hz, hok⟩ := flmDpP_inv pj a b
  by_cases hk0 : (flmDpP pj a b).2.2 = 0
  · have h0 := hz hk0
    have hflm : flmP pj a b = (0, 0, commonPrefixLen a b) := by
      unfold flmP flmLext flmRext
      rw [h0]
      simp [cpl_nil_left]
    rw [hflm]
    intro _
    refine ⟨?_, ?_, ?_⟩
    · simpa using cpl_le_left a b
    · simpa using cpl_le_right a b
    · simpa using cpl_take a b
  · obtain ⟨hb1, hb2, hblock⟩ := hok hk0
    have hLeq : flmLext pj a b
        = commonPrefixLen (a.take (flmDpP pj a b).1).reverse
            (b.take (flmDpP pj a b).2.1).reverse := rfl
    have hReq : flmRext pj a b
        = commonPrefixLen (a.drop ((flmDpP pj a b).1 + (flmDpP pj a b).2.2))
            (b.drop ((flmDpP pj a b).2.1 + (flmDpP pj a b).2.2)) := rfl
    have hL1 : flmLext pj a b ≤ (flmDpP pj a b).1 := by
      have h := cpl_le_left (a.take (flmDpP pj a b).1).reverse
        (b.take (flmDpP pj a b).2.1).reverse
      simp only [List.length_reverse, List.length_take] at h
      rw [hLeq]
      omega
    have hL2 : flmLext pj a b ≤ (flmDpP pj a b).2.1 := by
      have h := cpl_le_right (a.take (flmDpP pj a b).1).reverse
        (b.take (flmDpP pj a b).2.1).reverse
      simp only [List.length_reverse, List.length_take] at h
      rw [hLeq]
      omega
    have hR1 : flmRext pj a b
        ≤ a.length - ((flmDpP pj a b).1 + (flmDpP pj a b).2.2) := by
      have h := cpl_le_left (a.drop ((flmDpP pj a b).1 + (flmDpP pj a b).2.2))
        (b.drop ((flmDpP pj a b).2.1 + (flmDpP pj a b).2.2))
      simp only [List.length_drop] at h
      rw [hReq]
      exact h
    have hR2 : flmRext pj a b
        ≤ b.length - ((flmDpP pj a b).2.1 + (flmDpP pj a b).2.2) := by
      have h := cpl_le_right (a.drop ((flmDpP pj a b).1 + (flmDpP pj a b).2.2))
        (b.drop ((flmDpP pj a b).2.1 + (flmDpP pj a b).2.2))
      simp only [List.length_drop] at h
      rw [hReq]
      exact h
    intro _
    refine ⟨?_, ?_, ?_⟩
    · show (flmDpP pj a b).1 - flmLext pj a b
          + ((flmDpP pj a b).2.2 + flmLext pj a b + flmRext pj a b) ≤ a.length
      omega
    · show (flmDpP pj a b).2.1 - flmLext pj a b
          + ((flmDpP pj a b).2.2 + flmLext pj a b + flmRext pj a b) ≤ b.length
      omega
    · show (a.drop ((flmDpP pj a b).1 - flmLext pj a b)).take
            ((flmDpP pj a b).2.2 + flmLext pj a b + flmRext pj a b)
        = (b.drop ((flmDpP pj a b).2.1 - flmLext pj a b)).take
            ((flmDpP pj a b).2.2 + flmLext pj a b + flmRext pj a b)
      have e1 : (a.drop ((flmDpP pj a b).1 - flmLext pj a b)).take (flmLext pj a b)
          = (b.drop ((flmDpP pj a b).2.1 - flmLext pj a b)).take (flmLext pj a b) := by
        apply revtake_block_eq a b (flmDpP pj a b).1 (flmDpP pj a b).2.1
          (flmLext pj a b) (by omega) (by omega) hL1 hL2
        rw [hLeq]
        exact cpl_take _ _
      have e3 : (a.drop ((flmDpP pj a b).1 + (flmDpP pj a b).2.2)).take (flmRext pj a b)
          = (b.drop ((flmDpP pj a b).2.1 + (flmDpP pj a b).2.2)).take (flmRext pj a b) := by
        rw [hReq]
        exact cpl_take _ _
      have hsum : (flmDpP pj a b).2.2 + flmLext pj a b + flmRext pj a b
          = flmLext pj a b + ((flmDpP pj a b).2.2 + flmRext pj a b) := by omega
      rw [hsum]
      simp only [List.take_add, List.drop_drop]
      have ei : (flmDpP pj a b).1 - flmLext pj a b + flmLext pj a b
          = (flmDpP pj a b).1 := by omega
      have ej : (flmDpP pj a b).2.1 - flmLext pj a b + flmLext pj a b
          = (flmDpP pj a b).2.1 := by omega
      rw [ei, ej, e1, hblock, e3]

theorem flmP_nil_left (pj : Char → Bool) (b : List Char) :
    flmP pj [] b = (0, 0, 0) := rfl

theorem matchTotalFP_congr (pj : Char → Bool) :
    ∀ f g : Nat, ∀ a b : List Char, a.length ≤ f → a.length ≤ g →
      matchTotalFP pj f a b = matchTotalFP pj g a b := by
  intro f
  induction f with
  | zero =>
    intro g a b hf _
    have ha : a = [] := List.eq_nil_of_length_eq_zero (by omega)
    subst ha
    cases g with
    | zero => rfl
    | succ g => simp [matchTotalFP, flmP_nil_left]
  | succ f ih =>
    intro g a b hf hg
    cases g with
    | zero =>
      have ha : a = [] := List.eq_nil_of_length_eq_zero (by omega)
      subst ha
      simp [matchTotalFP, flmP_nil_left]
    | succ g =>
      simp only [matchTotalFP]
      by_cases hz : (flmP pj a b).2.2 = 0
      · simp [hz]
      · obtain ⟨hb1, hb2, _⟩ := flmP_ok pj a b hz
        have hlen : 0 < a.length := by omega
        have l1 : (a.take (flmP pj a b).1).length ≤ f := by
          simp only [List.length_take]; omega
        have l1g : (a.take (flmP pj a b).1).length ≤ g := by
          simp only [List.length_take]; omega
        have l2 : (a.drop ((flmP pj a b).1 + (flmP pj a b).2.2)).length ≤ f := by
          simp only [List.length_drop]; omega
        have l2g : (a.drop ((flmP pj a b).1 + (flmP pj a b).2.2)).length ≤ g := by
          simp only [List.length_drop]; omega
        rw [if_neg hz, if_neg hz, ih g _ _ l1 l1g, ih g _ _ l2 l2g]

/-- One-step unfolding of `matchTotalP` with the fuel hidden. -/
theorem matchTotalP_eq (pj : Char → Bool) (a b : List Char) : matchTotalP pj a b =
    (if (flmP pj a b).2.2 = 0 then 0
     else (flmP pj a b).2.2 +
       matchTotalP pj (a.take (flmP pj a b).1) (b.take (flmP pj a b).2.1) +
       matchTotalP pj (a.drop ((flmP pj a b).1 + (flmP pj a b).2.2))
         (b.drop ((flmP pj a b).2.1 + (flmP pj a b).2.2))) := by
  by_cases ha : a.length = 0
  · have hnil : a = [] := List.eq_nil_of_length_eq_zero ha
    subst hnil
    simp [matchTotalP, matchTotalFP, flmP_nil_left]
  · obtain ⟨n, hn⟩ : ∃ n, a.length = n + 1 := ⟨a.length - 1, by omega⟩
    have e : matchTotalP pj a b = matchTotalFP pj (n + 1) a b := by
      unfold matchTotalP; rw [hn]
    rw [e]
    simp only [matchTotalFP]
    by_cases hz : (flmP pj a b).2.2 = 0
    · simp [hz]
    · obtain ⟨hb1, hb2, _⟩ := flmP_ok pj a b hz
      rw [if_neg hz, if_neg hz]
      rw [matchTotalFP_congr pj n (a.take (flmP pj a b).1).length _ _
            (by simp only [List.length_take]; omega) (le_refl _),
          matchTotalFP_congr pj n (a.drop ((flmP pj a b).1 + (flmP pj a b).2.2)).length _ _
            (by simp only [List.length_drop]; omega) (le_refl _)]
      rfl

theorem matchTotalP_le_left_aux (pj : Char → Bool) :
    ∀ n : Nat, ∀ a b : List Char, a.length ≤ n → matchTotalP pj a b ≤ a.length := by
  intro n
  induction n with
  | zero =>
    intro a b h
    have : a = [] := List.eq_nil_of_length_eq_zero (by omega)
    subst this
    simp [matchTotalP, matchTotalFP]
  | succ n ih =>
    intro a b h
    rw [matchTotalP_eq]
    by_cases hz : (flmP pj a b).2.2 = 0
    · simp [hz]
    · obtain ⟨hb1, hb2, _⟩ := flmP_ok pj a b hz
      rw [if_neg hz]
      have i1 := ih (a.take (flmP pj a b).1) (b.take (flmP pj a b).2.1)
        (by simp only [List.length_take]; omega)
      have i2 := ih (a.drop ((flmP pj a b).1 + (flmP pj a b).2.2))
        (b.drop ((flmP pj a b).2.1 + (flmP pj a b).2.2))
        (by simp only [List.length_drop]; omega)
      simp only [List.length_take, List.length_drop] at i1 i2
      omega

theorem matchTotalP_le_left (pj : Char → Bool) (a b : List Char) :
    matchTotalP pj a b ≤ a.length :=
  matchTotalP_le_left_aux pj a.length a b (le_refl _)

theorem matchTotalP_le_right_aux (pj : Char → Bool) :
    ∀ n : Nat, ∀ a b : List Char, a.length ≤ n → matchTotalP pj a b ≤ b.length := by
  intro n
  induction n with
  | zero =>
    intro a b h
    have : a = [] := List.eq_nil_of_length_eq_zero (by omega)
    subst this
    simp [matchTotalP, matchTotalFP]
  | succ n ih =>
    intro a b h
    rw [matchTotalP_eq]
    by_cases hz : (flmP pj a b).2.2 = 0
    · simp [hz]
    · obtain ⟨hb1, hb2, _⟩ := flmP_ok pj a b hz
      rw [if_neg hz]
      have i1 := ih (a.take (flmP pj a b).1) (b.take (flmP pj a b).2.1)
        (by simp only [List.length_take]; omega)
      have i2 := ih (a.drop ((flmP pj a b).1 + (flmP pj a b).2.2))
        (b.drop ((flmP pj a b).2.1 + (flmP pj a b).2.2))
        (by simp only [List.length_drop]; omega)
      simp only [List.length_take, List.length_drop] at i1 i2
      omega

theorem matchTotalP_le_right (pj : Char → Bool) (a b : List Char) :
    matchTotalP pj a b ≤ b.length :=
  matchTotalP_le_right_aux pj a.length a b (le_refl _)

/-! ### The dynamic program on two copies of the same string

The purge is a property of the character alone, and a filtered common block
of `(a, a)` has equal characters on both sides, so every off-diagonal block
is dominated by a diagonal block that the scan meets no later.  Hence the
strict-improvement update keeps the best block on the diagonal, and the two
extension loops then stretch any diagonal block to the whole string — this
is why `ratio()` of two equal strings is `1.0` even when `autojunk` purges
characters. -/

theorem runLenP_le_diag_col (pj : Char → Bool) (a : List Char) (i j : Nat) :
    runLenP pj a a i j ≤ runLenP pj a a j j :=
  cplP_le_diagR pj (a.take (i + 1)).reverse (a.take (j + 1)).reverse

theorem runLenP_le_diag_row (pj : Char → Bool) (a : List Char) (i j : Nat) :
    runLenP pj a a i j ≤ runLenP pj a a i i :=
  cplP_le_diagL pj (a.take (i + 1)).reverse (a.take (j + 1)).reverse

/-- A best triple of the dynamic program on `(a, a)`: still the starting
`(0, 0, 0)`, or a diagonal block. -/
def diagZ (t : Nat × Nat × Nat) : Prop :=
  t = (0, 0, 0) ∨ (t.1 = t.2.1 ∧ t.2.2 ≠ 0)

theorem flmUpdP_no_change {pj : Char → Bool} {a b : List Char} {i j : Nat}
    {best : Nat × Nat × Nat} (h : runLenP pj a b i j ≤ best.2.2) :
    flmUpdP pj a b i best j = best := by
  unfold flmUpdP
  rw [if_neg (by omega)]

theorem foldl_flmUpdP_no_change {pj : Char → Bool} {a b : List Char} {i : Nat} :
    ∀ (js : List Nat) (best : Nat × Nat × Nat),
      (∀ j ∈ js, runLenP pj a b i j ≤ best.2.2) →
      js.foldl (flmUpdP pj a b i) best = best := by
  intro js
  induction js with
  | nil => intro best _; rfl
  | cons j js ih =>
    intro best h
    simp only [List.foldl_cons]
    rw [flmUpdP_no_change (h j (List.mem_cons_self _ _))]
    exact ih best (fun x hx => h x (List.mem_cons_of_mem _ hx))

theorem range_split : ∀ n i : Nat, i < n →
    ∃ tail : List Nat, List.range n = List.range i ++ i :: tail ∧
      ∀ j ∈ tail, i < j := by
  intro n
  induction n with
  | zero => intro i h; omega
  | succ m ih =>
    intro i h
    by_cases hi : i < m
    · obtain ⟨tail, ht, hgt⟩ := ih i hi
      refine ⟨tail ++ [m], ?_, ?_⟩
      · rw [List.range_succ, ht, List.append_assoc, List.cons_append]
      · intro j hj
        rcases List.mem_append.mp hj with h1 | h1
        · exact hgt j h1
        · have : j = m := List.mem_singleton.mp h1
          omega
    · have : i = m := by omega
      subst this
      exact ⟨[], by rw [List.range_succ], fun j hj => absurd hj (List.not_mem_nil j)⟩

/-- One row of the dynamic program on `(a, a)`: columns left of the diagonal
are dominated by earlier diagonal runs, the diagonal cell keeps the best
diagonal, and later columns are dominated by the diagonal cell of this row. -/
theorem flmInnerP_diag (pj : Char → Bool) (a : List Char) (i : Nat)
    (hi : i < a.length) (best : Nat × Nat × Nat) (hD : diagZ best)
    (hdom : ∀ j, j < i → runLenP pj a a j j ≤ best.2.2) :
    diagZ (flmInnerP pj a a best i) ∧
      runLenP pj a a i i ≤ (flmInnerP pj a a best i).2.2 ∧
      best.2.2 ≤ (flmInnerP pj a a best i).2.2 := by
  obtain ⟨tail, hsplit, htail⟩ := range_split a.length i hi
  unfold flmInnerP
  rw [hsplit, List.foldl_append, List.foldl_cons]
  rw [foldl_flmUpdP_no_change (List.range i) best
    (fun j hj => le_trans (runLenP_le_diag_col pj a i j)
      (hdom j (List.mem_range.mp hj)))]
  by_cases hlt : best.2.2 < runLenP pj a a i i
  · have hupd : flmUpdP pj a a i best i
        = (i + 1 - runLenP pj a a i i, i + 1 - runLenP pj a a i i,
            runLenP pj a a i i) := by
      unfold flmUpdP
      rw [if_pos hlt]
    rw [hupd]
    have htl : ∀ j ∈ tail, runLenP pj a a i j
        ≤ ((i + 1 - runLenP pj a a i i, i + 1 - runLenP pj a a i i,
            runLenP pj a a i i) : Nat × Nat × Nat).2.2 :=
      fun j _ => runLenP_le_diag_row pj a i j
    rw [foldl_flmUpdP_no_change tail _ htl]
    refine ⟨Or.inr ⟨rfl, ?_⟩, le_refl _, ?_⟩
    · show runLenP pj a a i i ≠ 0
      omega
    · show best.2.2 ≤ runLenP pj a a i i
      omega
  · have hupd : flmUpdP pj a a i best i = best := flmUpdP_no_change (by omega)
    rw [hupd]
    have htl : ∀ j ∈ tail, runLenP pj a a i j ≤ best.2.2 :=
      fun j _ => le_trans (runLenP_le_diag_row pj a i j) (by omega)
    rw [foldl_flmUpdP_no_change tail best htl]
    exact ⟨hD, by omega, le_refl _⟩

theorem flmDpP_outer_diag (pj : Char → Bool) (a : List Char) :
    ∀ n, n ≤ a.length →
      diagZ ((List.range n).foldl (flmInnerP pj a a) (0, 0, 0)) ∧
      ∀ j, j < n → runLenP pj a a j j
        ≤ ((List.range n).foldl (flmInnerP pj a a) (0, 0, 0)).2.2 := by
  intro n
  induction n with
  | zero =>
    intro _
    exact ⟨Or.inl rfl, fun j hj => absurd hj (by omega)⟩
  | succ m ih =>
    intro h
    obtain ⟨ihD, ihdom⟩ := ih (by omega)
    rw [List.range_succ, List.foldl_append, List.foldl_cons, List.foldl_nil]
    obtain ⟨hD2, hdiag2, hmono2⟩ := flmInnerP_diag pj a m (by omega) _ ihD ihdom
    refine ⟨hD2, ?_⟩
    intro j hj
    by_cases hjm : j < m
    · exact le_trans (ihdom j hjm) hmono2
    · have : j = m := by omega
      subst this
      exact hdiag2

theorem flmDpP_self_diag (pj : Char → Bool) (a : List Char) :
    diagZ (flmDpP pj a a) :=
  (flmDpP_outer_diag pj a a.length (le_refl _)).1

/-- On two copies of the same string, the extension loops always stretch the
(diagonal or empty) best block of the dynamic program to the full string. -/
theorem flmP_self (pj : Char → Bool) (a : List Char) :
    flmP pj a a = (0, 0, a.length) := by
  obtain ⟨hz, hok⟩ := flmDpP_inv pj a a
  rcases flmDpP_self_diag pj a with h0 | ⟨hdiag, hne⟩
  · have hL : flmLext pj a a = 0 := by
      unfold flmLext
      rw [h0]
      simp [cpl_nil_left]
    have hR : flmRext pj a a = a.length := by
      unfold flmRext
      rw [h0]
      simp [cpl_self]
    unfold flmP
    rw [h0, hL, hR]
    simp
  · obtain ⟨hb1, _, _⟩ := hok hne
    have hi0 : (flmDpP pj a a).1 ≤ a.length := by omega
    have hL : flmLext pj a a = (flmDpP pj a a).1 := by
      unfold flmLext
      rw [← hdiag, cpl_self, List.length_reverse, List.length_take]
      omega
    have hR : flmRext pj a a
        = a.length - ((flmDpP pj a a).1 + (flmDpP pj a a).2.2) := by
      unfold flmRext
      rw [← hdiag, cpl_self, List.length_drop]
    unfold flmP
    rw [← hdiag, hL, hR]
    have e1 : (flmDpP pj a a).1 - (flmDpP pj a a).1 = 0 := by omega
    have e3 : (flmDpP pj a a).2.2 + (flmDpP pj a a).1
        + (a.length - ((flmDpP pj a a).1 + (flmDpP pj a a).2.2)) = a.length := by
      omega
    rw [e1, e3]

theorem matchTotalP_self (pj : Char → Bool) (a : List Char) :
    matchTotalP pj a a = a.length := by
  by_cases h : a = []
  · subst h; rfl
  · rw [matchTotalP_eq, flmP_self]
    have hlen : 0 < a.length := List.length_pos.mpr h
    simp only []
    rw [if_neg (by omega)]
    simp [matchTotalP, matchTotalFP]

/-- A full-length match forces the two strings to be equal, for any purge. -/
theorem matchTotalP_full_aux (pj : Char → Bool) :
    ∀ n : Nat, ∀ a b : List Char, a.length ≤ n →
      matchTotalP pj a b = a.length → matchTotalP pj a b = b.length → a = b := by
  intro n
  induction n with
  | zero =>
    intro a b h h1 h2
    have hnil : a = [] := List.eq_nil_of_length_eq_zero (by omega)
    subst hnil
    have hb0 : b.length = 0 := by
      have h0 : matchTotalP pj ([] : List Char) b = 0 := rfl
      omega
    exact (List.eq_nil_of_length_eq_zero hb0).symm
  | succ n ih =>
    intro a b h h1 h2
    rw [matchTotalP_eq] at h1 h2
    by_cases hz : (flmP pj a b).2.2 = 0
    · rw [if_pos hz] at h1 h2
      rw [List.eq_nil_of_length_eq_zero h1.symm, List.eq_nil_of_length_eq_zero h2.symm]
    · obtain ⟨hb1, hb2, hblock⟩ := flmP_ok pj a b hz
      rw [if_neg hz] at h1 h2
      have mL1 : matchTotalP pj (a.take (flmP pj a b).1) (b.take (flmP pj a b).2.1)
          ≤ (flmP pj a b).1 := by
        have := matchTotalP_le_left pj (a.take (flmP pj a b).1) (b.take (flmP pj a b).2.1)
        simp only [List.length_take] at this
        omega
      have mL2 : matchTotalP pj (a.take (flmP pj a b).1) (b.take (flmP pj a b).2.1)
          ≤ (flmP pj a b).2.1 := by
        have := matchTotalP_le_right pj (a.take (flmP pj a b).1) (b.take (flmP pj a b).2.1)
        simp only [List.length_take] at this
        omega
      have mR1 : matchTotalP pj (a.drop ((flmP pj a b).1 + (flmP pj a b).2.2))
          (b.drop ((flmP pj a b).2.1 + (flmP pj a b).2.2))
          ≤ a.length - ((flmP pj a b).1 + (flmP pj a b).2.2) := by
        have := matchTotalP_le_left pj (a.drop ((flmP pj a b).1 + (flmP pj a b).2.2))
          (b.drop ((flmP pj a b).2.1 + (flmP pj a b).2.2))
        simp only [List.length_drop] at this
        omega
      have mR2 : matchTotalP pj (a.drop ((flmP pj a b).1 + (flmP pj a b).2.2))
          (b.drop ((flmP pj a b).2.1 + (flmP pj a b).2.2))
          ≤ b.length - ((flmP pj a b).2.1 + (flmP pj a b).2.2) := by
        have := matchTotalP_le_right pj (a.drop ((flmP pj a b).1 + (flmP pj a b).2.2))
          (b.drop ((flmP pj a b).2.1 + (flmP pj a b).2.2))
        simp only [List.length_drop] at this
        omega
      -- from h1, h2 and the bounds, each part is a full match
      have eL1 : matchTotalP pj (a.take (flmP pj a b).1) (b.take (flmP pj a b).2.1)
          = (flmP pj a b).1 := by omega
      have eL2 : matchTotalP pj (a.take (flmP pj a b).1) (b.take (flmP pj a b).2.1)
          = (flmP pj a b).2.1 := by omega
      have eR1 : matchTotalP pj (a.drop ((flmP pj a b).1 + (flmP pj a b).2.2))
          (b.drop ((flmP pj a b).2.1 + (flmP pj a b).2.2))
          = a.length - ((flmP pj a b).1 + (flmP pj a b).2.2) := by omega
      have eR2 : matchTotalP pj (a.drop ((flmP pj a b).1 + (flmP pj a b).2.2))
          (b.drop ((flmP pj a b).2.1 + (flmP pj a b).2.2))
          = b.length - ((flmP pj a b).2.1 + (flmP pj a b).2.2) := by omega
      have hL := ih (a.take (flmP pj a b).1) (b.take (flmP pj a b).2.1)
        (by simp only [List.length_take]; omega)
        (by simp only [List.length_take]; omega)
        (by simp only [List.length_take]; omega)
      have hR := ih (a.drop ((flmP pj a b).1 + (flmP pj a b).2.2))
        (b.drop ((flmP pj a b).2.1 + (flmP pj a b).2.2))
        (by simp only [List.length_drop]; omega)
        (by simp only [List.length_drop]; omega)
        (by simp only [List.length_drop]; omega)
      -- reassemble a and b from the three segments
      have decompA : a = a.take (flmP pj a b).1
          ++ (a.drop (flmP pj a b).1).take (flmP pj a b).2.2
          ++ a.drop ((flmP pj a b).1 + (flmP pj a b).2.2) := by
        rw [← List.drop_drop]
        rw [List.append_assoc, List.take_append_drop, List.take_append_drop]
      have decompB : b = b.take (flmP pj a b).2.1
          ++ (b.drop (flmP pj a b).2.1).take (flmP pj a b).2.2
          ++ b.drop ((flmP pj a b).2.1 + (flmP pj a b).2.2) := by
        rw [← List.drop_drop]
        rw [List.append_assoc, List.take_append_drop, List.take_append_drop]
      conv_lhs => rw [decompA]
      conv_rhs => rw [decompB]
      rw [hL, hblock, hR]

theorem matchTotalP_full (pj : Char → Bool) (a b : List Char)
    (h1 : matchTotalP pj a b = a.length) (h2 : matchTotalP pj a b = b.length) :
    a = b :=
  matchTotalP_full_aux pj a.length a b (le_refl _) h1 h2

theorem matchTotal_le_left (a b : List Char) : matchTotal a b ≤ a.length :=
  matchTotalP_le_left (isPopular b) a b

theorem matchTotal_le_right (a b : List Char) : matchTotal a b ≤ b.length :=
  matchTotalP_le_right (isPopular b) a b

theorem matchTotal_self (a : List Char) : matchTotal a a = a.length :=
  matchTotalP_self (isPopular a) a

theorem matchTotal_full (a b : List Char) (h1 : matchTotal a b = a.length)
    (h2 : matchTotal a b = b.length) : a = b :=
  matchTotalP_full (isPopular b) a b h1 h2

theorem simScore_self (a : List Char) : simScore a a = 1 := by
  unfold simScore
  by_cases h : a.length + a.length = 0
  · simp [h]
  · rw [if_neg h, matchTotal_self]
    rw [div_eq_one_iff_eq (by intro hc; apply h; exact_mod_cast hc)]
    ring

theorem simScore_nonneg (a b : List Char) : 0 ≤ simScore a b := by
  unfold simScore
  split
  · norm_num
  · apply div_nonneg
    · positivity
    · positivity

theorem simScore_le_one (a b : List Char) : simScore a b ≤ 1 := by
  unfold simScore
  split
  · exact le_refl _
  · rename_i h
    have hpos : (0 : ℚ) < (a.length : ℚ) + (b.length : ℚ) := by
      have hp : 0 < a.length + b.length := Nat.pos_of_ne_zero h
      exact_mod_cast hp
    rw [div_le_one hpos]
    have h1 := matchTotal_le_left a b
    have h2 := matchTotal_le_right a b
    have c1 : (matchTotal a b : ℚ) ≤ a.length := by exact_mod_cast h1
    have c2 : (matchTotal a b : ℚ) ≤ b.length := by exact_mod_cast h2
    linarith

theorem simScore_eq_one_iff (a b : List Char) : simScore a b = 1 ↔ a = b := by
  constructor
  · intro h
    unfold simScore at h
    by_cases hz : a.length + b.length = 0
    · have ha : a = [] := List.eq_nil_of_length_eq_zero (by omega)
      have hb : b = [] := List.eq_nil_of_length_eq_zero (by omega)
      rw [ha, hb]
    · rw [if_neg hz] at h
      rw [div_eq_one_iff_eq (by
        intro hc
        apply hz
        exact_mod_cast hc)] at h
      have hnat : 2 * matchTotal a b = a.length + b.length := by exact_mod_cast h
      have h1 := matchTotal_le_left a b
      have h2 := matchTotal_le_right a b
      exact matchTotal_full a b (by omega) (by omega)
  · intro h
    subst h
    exact simScore_self a

/-! ## ModeratorAgent: transliteration helpers

`_ru_to_lat` (lines 44–59) and `_lat_to_ru_approx` (lines 61–78) of
`agent_moderator.py`. -/

/-- Per-character table of `_ru_to_lat`: Cyrillic letters map to Latin
digraphs/letters, `[a-z0-9]` characters are kept, everything else dropped
(the input has already been lowered). -/
def ruToLatCh : Char → List Char
  | 'а' => ['a'] | 'б' => ['b'] | 'в' => ['v'] | 'г' => ['g'] | 'д' => ['d']
  | 'е' => ['e'] | 'ё' => ['e'] | 'ж' => ['z', 'h'] | 'з' => ['z'] | 'и' => ['i']
  | 'й' => ['i'] | 'к' => ['k'] | 'л' => ['l'] | 'м' => ['m'] | 'н' => ['n']
  | 'о' => ['o'] | 'п' => ['p'] | 'р' => ['r'] | 'с' => ['s'] | 'т' => ['t']
  | 'у' => ['u'] | 'ф' => ['f'] | 'х' => ['h'] | 'ц' => ['c'] | 'ч' => ['c', 'h']
  | 'ш' => ['s', 'h'] | 'щ' => ['s', 'h'] | 'ъ' => [] | 'ы' => ['y'] | 'ь' => []
  | 'э' => ['e'] | 'ю' => ['y', 'u'] | 'я' => ['y', 'a']
  | c => if isAsciiLower c || isDigitC c then [c] else []

/-- `ModeratorAgent._ru_to_lat`. -/
def ruToLat (l : List Char) : List Char := ((lowerStr l).map ruToLatCh).flatten

/-- Per-character table of `_lat_to_ru_approx`: Latin letters map to Cyrillic
(with `x` → `кс`), digits map to themselves, everything else to nothing
(`table.get(ch, '')`). -/
def latToRuCh : Char → List Char
  | 'a' => ['а'] | 'b' => ['б'] | 'c' => ['ц'] | 'd' => ['д'] | 'e' => ['е']
  | 'f' => ['ф'] | 'g' => ['г'] | 'h' => ['х'] | 'i' => ['и'] | 'j' => ['й']
  | 'k' => ['к'] | 'l' => ['л'] | 'm' => ['м'] | 'n' => ['н'] | 'o' => ['о']
  | 'p' => ['п'] | 'q' => ['к'] | 'r' => ['р'] | 's' => ['с'] | 't' => ['т']
  | 'u' => ['у'] | 'v' => ['в'] | 'w' => ['в'] | 'x' => ['к', 'с'] | 'y' => ['и']
  | 'z' => ['з']
  | c => if isDigitC c then [c] else []

/-- Number of leading repetitions of the two-character pattern `кс`. -/
def ksCount : List Char → Nat
  | 'к' :: 'с' :: rest => ksCount rest + 1
  | _ => 0

/-- `re.sub(r'(кс){2,}', 'кс', s)`: every leftmost maximal run of at least
two `кс` repetitions is replaced by a single `кс`.  Fuelled structural
recursion; `fuel = length` always suffices since each step consumes at
least one character. -/
def collapseKsF : Nat → List Char → List Char
  | 0, l => l
  | _ + 1, [] => []
  | fuel + 1, c :: rest =>
    if 2 ≤ ksCount (c :: rest) then
      'к' :: 'с' :: collapseKsF fuel ((c :: rest).drop (2 * ksCount (c :: rest)))
    else c :: collapseKsF fuel rest

def collapseKs (l : List Char) : List Char := collapseKsF l.length l

/-- Group a string into maximal runs of characters with equal `key`. -/
def groupRunsAux (key : Char → Nat) : List Char → List Char → List (List Char)
  | [], acc => if acc.isEmpty then [] else [acc.reverse]
  | c :: rest, acc =>
    match acc with
    | [] => groupRunsAux key rest [c]
    | a :: _ =>
      if key a = key c then groupRunsAux key rest (c :: acc)
      else acc.reverse :: groupRunsAux key rest [c]

def groupRuns (key : Char → Nat) (l : List Char) : List (List Char) :=
  groupRunsAux key l []

/-- `re.sub(r'(.)\1{2,}', r'\1', s)`: runs of three or more equal characters
collapse to one (runs of one or two are kept). -/
def collapseRepeats (l : List Char) : List Char :=
  ((groupRuns (fun c => c.toNat) l).map (fun r => if 3 ≤ r.length then r.take 1 else r)).flatten

/-- `ModeratorAgent._lat_to_ru_approx`. -/
def latToRuApprox (l : List Char) : List Char :=
  collapseRepeats (collapseKs (((lowerStr l).map latToRuCh).flatten))

/-! ## ModeratorAgent: data model and pipeline stages -/

/-- The `AnalysisResult` class of `agent_moderator.py` (categories are the
strings `"CLEAN"`, `"CATEGORY_A"`, `"CATEGORY_B"`, `"CATEGORY_C"`,
`"ERROR"`). -/
structure AnalysisResult where
  category : List Char
  reason : List Char
  hasLinks : Bool
  links : List (List Char)
deriving DecidableEq

/-- The registry state built by `_load_inoagents`: the set of normalized
full names (`self.inoagents`, modelled as a list) and the pseudonym
dictionary (`self.pseudonyms`, modelled as an association list in insertion
order). -/
structure Moderator where
  inoagents : List (List Char)
  pseudonyms : List (List Char × List Char)
deriving DecidableEq

/-- The external GigaChat endpoint, as seen by `analyze_message`: the
per-token alias query (lines 244), the whole-message alias extraction
(line 312) and the final classification call (line 407).  `Except.error`
is the Python exception path (timeout/network/malformed). -/
structure LLMOracle where
  aliasSmall : List Char → Except Unit (List Char)
  aliasFull : Except Unit (List Char)
  classify : Except Unit (List Char)

/-- `token_blacklist` (lines 157, 202, 233, 267). -/
def tokenBlacklist : List (List Char) :=
  ["агент", "мат", "чел", "тут", "здесь", "кто", "что", "новости", "иноагент"].map
    String.data

/-- The second-fast-path blacklist (line 397), without `иноагент`. -/
def tokenBlacklistNoIno : List (List Char) :=
  ["агент", "мат", "чел", "тут", "здесь", "кто", "что", "новости"].map String.data

/-- `pronouns` (line 266). -/
def pronounWords : List (List Char) :=
  ["ты", "вы", "он", "она", "они", "кто", "что", "это", "здесь", "там"].map String.data

/-- `pseudo_blacklist` of `_load_inoagents` (lines 87–91). -/
def pseudoBlacklist : List (List Char) :=
  ["проект", "ресурс", "команда", "издание", "газета", "телеграм", "канал",
   "организация", "платформа", "фонд", "агент", "мат", "медиа", "радио", "сайт",
   "новости", "открытых", "важных", "иноагент"].map String.data

/-- `re.findall(r'https?://[^\s]+', text)` (`extract_urls`): within each
whitespace-free run, a URL starts at the first `http://`/`https://` and
greedily extends to the end of the run. -/
def startsWithHttp (l : List Char) : Bool :=
  "http://".data.isPrefixOf l || "https://".data.isPrefixOf l

def urlInRun : List Char → Option (List Char)
  | [] => none
  | c :: rest => if startsWithHttp (c :: rest) then some (c :: rest) else urlInRun rest

def extractUrls (l : List Char) : List (List Char) :=
  (splitWs l).filterMap urlInRun

/-- Character classes for the Cyrillic-word regex scanners: Cyrillic → 0,
whitespace → 1, other → 2. -/
def cwKey (c : Char) : Nat := if isCyr c then 0 else if isSpaceC c then 1 else 2

def cyrRun : List Char → Bool
  | c :: _ => isCyr c
  | [] => false

def wsRun : List Char → Bool
  | c :: _ => isSpaceC c
  | [] => false

/-- `re.findall(r'([А-Яа-яёЁ]+\s+[А-Яа-яёЁ]+)', message)` (line 263), on the
maximal-run decomposition of the text: a match is a Cyrillic run, a
whitespace run and a Cyrillic run; matches are non-overlapping and scanning
resumes after each match. -/
def pairScanF : Nat → List (List Char) → List (List Char)
  | 0, _ => []
  | fuel + 1, rs =>
    match rs with
    | r1 :: r2 :: r3 :: rest2 =>
      if cyrRun r1 && wsRun r2 && cyrRun r3 then
        (r1 ++ r2 ++ r3) :: pairScanF fuel rest2
      else pairScanF fuel (r2 :: r3 :: rest2)
    | _ => []

def pairScan (rs : List (List Char)) : List (List Char) := pairScanF rs.length rs

def findNamePairs (msg : List Char) : List (List Char) :=
  pairScan (groupRuns cwKey msg)

/-- The optional third word of the FIO pattern
`([А-ЯЁа-яё]+\s+[А-ЯЁа-яё]+(?:\s+[А-ЯЁа-яё]+)?)` (greedy). -/
def fioThird : List (List Char) → List Char
  | r4 :: r5 :: _ => if wsRun r4 && cyrRun r5 then r4 ++ r5 else []
  | _ => []

/-- `re.search` of the FIO pattern: first (leftmost) match of two or —
greedily — three whitespace-separated Cyrillic words. -/
def fioScanF : Nat → List (List Char) → Option (List Char)
  | 0, _ => none
  | fuel + 1, rs =>
    match rs with
    | r1 :: r2 :: r3 :: rest2 =>
      if cyrRun r1 && wsRun r2 && cyrRun r3 then
        some (r1 ++ r2 ++ r3 ++ fioThird rest2)
      else fioScanF fuel (r2 :: r3 :: rest2)
    | _ => none

def fioScan (rs : List (List Char)) : Option (List Char) := fioScanF rs.length rs

def searchFio (l : List Char) : Option (List Char) :=
  fioScan (groupRuns cwKey l)

/-- Python `dict` lookup on the association-list model of `self.pseudonyms`. -/
def dictLookup (ps : List (List Char × List Char)) (k : List Char) :
    Option (List Char) :=
  (ps.find? (fun kv => decide (kv.1 = k))).map (fun kv => kv.2)

def cleanReason : List Char := "Сообщение соответствует правилам".data

def matReason : List Char := "ненормативная лексика \"для выразительности\"".data

def regReason (name : List Char) : List Char :=
  "Упоминание лица из реестра иноагентов: ".data ++ name

def mkCResult (name : List Char) (links : List (List Char)) : AnalysisResult :=
  ⟨"CATEGORY_C".data, regReason name, !links.isEmpty, links⟩

/-- The single-short-token fast path (lines 156–165, and again with the
smaller blacklist at lines 391–403): a message consisting of exactly one
token that is blacklisted or shorter than 3 characters is classified
immediately (`CATEGORY_B` for `мат`, otherwise `CLEAN`). -/
def fastPathCore (bl : List (List Char)) (toks : List (List Char))
    (links : List (List Char)) : Option AnalysisResult :=
  match toks with
  | [t] =>
    if pyNormalize t ∈ bl ∨ (pyNormalize t).length < 3 then
      (if pyNormalize t = "мат".data then
        some ⟨"CATEGORY_B".data, matReason, !links.isEmpty, links⟩
       else some ⟨"CLEAN".data, cleanReason, !links.isEmpty, links⟩)
    else none
  | _ => none

def fastPathGen (bl : List (List Char)) (msg : List Char) (links : List (List Char)) :
    Option AnalysisResult :=
  fastPathCore bl (tokenizeMsg msg) links

/-- The normalized token set of the message (line 171–172:
`re.findall(..., message.lower())`, each token `_normalize`d). -/
def msgTokenSet (msg : List Char) : List (List Char) :=
  (tokenizeMsg (lowerStr msg)).map pyNormalize

/-- The direct two-token registry test of stage 2 (lines 176–196): the entry
must have at least two tokens, at least two of its tokens must occur in the
message token set, and its first two tokens must occur in order at word
boundaries in the normalized message. -/
def directHit (msgTokSet : List (List Char)) (msgNorm : List Char)
    (name : List Char) : Bool :=
  decide (2 ≤ (splitWs name).length) &&
  decide (2 ≤ (splitWs name).countP (fun t => decide (t ∈ msgTokSet))) &&
  orderedPairMatch ((splitWs name).getD 0 []) ((splitWs name).getD 1 []) msgNorm

/-- Stage 2: first registry entry passing `directHit` (the Python `for name
in self.inoagents` loop, with the set modelled as a list). -/
def directStage (agents : List (List Char)) (msg : List Char) : Option (List Char) :=
  agents.find? (fun name => directHit (msgTokenSet msg) (pyNormalize msg) name)

/-- `re.sub(r'[^a-z0-9]', '', p)` (line 218). -/
def asciiProj (p : List Char) : List Char :=
  p.filter (fun c => isAsciiLower c || isDigitC c)

/-- The fuzzy condition of the inner alias loop (lines 216–227): the alias's
Latin projection is nonempty and at least 4 long, the transliterated token is
at least 4 long, and the SequenceMatcher ratio is at least 0.80. -/
def fuzzyHit (tLat p : List Char) : Bool :=
  !(asciiProj p).isEmpty && decide (4 ≤ (asciiProj p).length) &&
  decide (4 ≤ tLat.length) && decide ((4 / 5 : ℚ) ≤ simScore tLat (asciiProj p))

/-- Stage 3, per message token (lines 203–227): skip short/blacklisted
tokens; exact pseudonym dictionary hit wins; otherwise, for tokens of
normalized length ≥ 4, the first alias passing `fuzzyHit` wins. -/
def pseudoTokenStep (ps : List (List Char × List Char)) (t : List Char) :
    Option (List Char) :=
  if (pyNormalize t).length < 3 ∨ pyNormalize t ∈ tokenBlacklist then none
  else
    match dictLookup ps (pyNormalize t) with
    | some fio => some fio
    | none =>
      if (pyNormalize t).length < 4 then none
      else (ps.find? (fun kv => fuzzyHit (ruToLat (pyNormalize t)) kv.1)).map
        (fun kv => kv.2)

def pseudoStage (ps : List (List Char × List Char)) (msg : List Char) :
    Option (List Char) :=
  (tokenizeMsg msg).findSome? (pseudoTokenStep ps)

/-- The per-token LLM alias loop (lines 228–259).  Its body references the
local function `tokens`, which is only bound later (line 276), so whenever a
FIO is parsed out of a response the comparison at line 252 raises
`UnboundLocalError`; together with a failing LLM call this is swallowed by
the enclosing `except Exception: pass`, and a completed loop falls through.
Hence the stage can never return a result; we model the control flow
(`Except.error` = the swallowed exception). -/
def smallAliasLoop (o : List Char → Except Unit (List Char)) :
    List (List Char) → Except Unit Unit
  | [] => Except.ok ()
  | t :: ts =>
    if (pyNormalize t).length < 3 ∨ pyNormalize t ∈ tokenBlacklist then
      smallAliasLoop o ts
    else
      match o (pyNormalize t) with
      | Except.error e => Except.error e
      | Except.ok resp =>
        if resp.isEmpty then smallAliasLoop o ts
        else
          match searchFio resp with
          | some _ => Except.error ()
          | none => smallAliasLoop o ts

def smallAliasStage (o : LLMOracle) (msg : List Char) : Option AnalysisResult :=
  match smallAliasLoop o.aliasSmall (tokenizeMsg msg) with
  | Except.error _ => none
  | Except.ok _ => none

/-- `local_candidates` (lines 263–274): normalized two-Cyrillic-word pairs
of the message, excluding pairs containing a pronoun or blacklisted token
(a Python `set`, modelled as a deduplicated list in insertion order). -/
def localCandidates (msg : List Char) : List (List Char) :=
  (((findNamePairs msg).map pyNormalize).filter
    (fun nm => !((splitWs nm).any
      (fun p => decide (p ∈ pronounWords) || decide (p ∈ tokenBlacklist))))).eraseDups

/-- `len(set(tokens(a)) & set(tokens(b)))`. -/
def tokenOverlap (a b : List Char) : Nat :=
  (((splitWs a).eraseDups).filter (fun t => decide (t ∈ splitWs b))).length

/-- `context_block` (line 287). -/
def contextBlock : List (List Char) :=
  ["встреча", "встречается", "часто", "упоминается"].map String.data

/-- Stage 5 (lines 279–297): first registry entry sharing ≥ 2 tokens with a
local candidate pair; every candidate is suppressed when a
frequency/occurrence context marker occurs in the normalized message. -/
def namePairStage (agents : List (List Char)) (msgNorm : List Char)
    (cands : List (List Char)) : Option (List Char) :=
  cands.findSome? (fun cand =>
    agents.find? (fun reg =>
      decide (2 ≤ tokenOverlap cand reg) &&
      !(contextBlock.any (fun ctx => isSub ctx msgNorm))))

/-- The alias-extraction response (lines 302–315); a failing call yields the
empty string. -/
def aliasText (o : LLMOracle) : List Char :=
  match o.aliasFull with
  | Except.ok r => r
  | Except.error _ => []

def splitSemi (l : List Char) : List (List Char) :=
  runsOf (fun c => !(c = ';' || c = ',')) l

/-- `re.sub(r"[^А-Яа-яёЁ\s-]", '', p)` (line 327). -/
def cleanFioPart (l : List Char) : List Char :=
  l.filter (fun c => isCyr c || isSpaceC c || c = '-')

/-- `found_fios` (lines 319–330): replace newlines by commas, strip, split
on `[;,]+`, strip the parts and drop empty ones, clean each part, search the
FIO pattern and normalize; a Python `set`, modelled as a deduplicated list. -/
def foundFios (resp : List Char) : List (List Char) :=
  if resp.isEmpty then []
  else
    ((((splitSemi (stripChars (resp.map (fun c => if c = '\n' then ',' else c)))).map
        stripChars).filter (fun p => !p.isEmpty)).filterMap
      (fun p => (searchFio (cleanFioPart p)).map pyNormalize)).eraseDups

/-- `matched` (lines 338–345): for each extracted FIO, the first registry
entry sharing at least two tokens with it. -/
def matchedRegs (agents : List (List Char)) (fios : List (List Char)) :
    List (List Char) :=
  fios.filterMap (fun f => agents.find? (fun reg => decide (2 ≤ tokenOverlap f reg)))

/-- Response parsing of the final classification call (lines 410–427). -/
def parseCategory (resp : List Char) : List Char :=
  if isSub "CATEGORY_A".data resp || isSub "ограничены".data resp ||
      isSub "разговоры".data resp then "CATEGORY_A".data
  else if isSub "CATEGORY_B".data resp then "CATEGORY_B".data
  else if isSub "CATEGORY_C".data resp then "CATEGORY_C".data
  else "CLEAN".data

/-- `re.search(r"ПРИЧИНА:\s*(.+?)(?=\n|$)", response, re.IGNORECASE)` then
`.strip()`: after the first case-insensitive `причина:` marker, skip
whitespace and capture the rest of the line.  (In the corner case where only
whitespace remains Python can still capture a whitespace group that strips
to the empty string; no theorem below depends on the extracted reason.) -/
def extractReason (resp : List Char) : Option (List Char) :=
  match (List.range (resp.length + 1)).find?
      (fun i => "причина:".data.isPrefixOf ((lowerStr resp).drop i)) with
  | none => none
  | some i =>
    if (((resp.drop (i + 8)).dropWhile isSpaceC).takeWhile (fun c => c ≠ '\n')).isEmpty
    then none
    else some (stripChars (((resp.drop (i + 8)).dropWhile isSpaceC).takeWhile
      (fun c => c ≠ '\n')))

/-- `threat_words` (line 462). -/
def threatWords : List (List Char) :=
  ["убью", "порв", "убь", "поджог", "взорв", "уничтож", "расстрел"].map String.data

/-- `rude_words` (line 463). -/
def rudeWords : List (List Char) :=
  ["дурак", "тупой", "идиот", "сволочь", "мерзавец", "ублюдок"].map String.data

/-- The offline fallback classification of the `except` branch
(lines 458–473): threat markers give `CATEGORY_A`, rude markers
`CATEGORY_B`, otherwise `CLEAN`. -/
def fallbackClassify (msgNorm : List Char) (links : List (List Char)) :
    AnalysisResult :=
  if threatWords.any (fun w => isSub w msgNorm) then
    ⟨"CATEGORY_A".data, "Признак угроз/насилия".data, !links.isEmpty, links⟩
  else if rudeWords.any (fun w => isSub w msgNorm) then
    ⟨"CATEGORY_B".data, "Грубость/оскорбление".data, !links.isEmpty, links⟩
  else ⟨"CLEAN".data, cleanReason, !links.isEmpty, links⟩

/-- `has_local_name` via the pseudonym dictionary (lines 440–445). -/
def hasLocalPseudonym (ps : List (List Char × List Char)) (msg : List Char) : Bool :=
  (tokenizeMsg msg).any (fun t => (dictLookup ps (pyNormalize t)).isSome)

/-- The final classification stage (lines 405–473): parse the LLM response,
downgrade an uncorroborated `CATEGORY_C` to `CLEAN`, and fall back to the
local keyword heuristic when the call fails. -/
def classifyStage (ps : List (List Char × List Char)) (msg : List Char)
    (links : List (List Char)) (cands matched : List (List Char))
    (resp : Except Unit (List Char)) : AnalysisResult :=
  match resp with
  | Except.error _ => fallbackClassify (pyNormalize msg) links
  | Except.ok r =>
    if parseCategory r = "CATEGORY_C".data ∧ matched.isEmpty ∧ cands.isEmpty ∧
        hasLocalPseudonym ps msg = false then
      ⟨"CLEAN".data, cleanReason, !links.isEmpty, links⟩
    else
      ⟨parseCategory r,
       (if parseCategory r = "CLEAN".data then cleanReason
        else (extractReason r).getD cleanReason),
       !links.isEmpty, links⟩

/-- `ModeratorAgent.analyze_message` (lines 143–473), with the two LLM calls
abstracted as the oracle `o`.  The outer `except` (line 476) is unreachable
in this model since every stage is total. -/
def analyzeMessage (agent : Moderator) (o : LLMOracle) (msg : List Char) :
    AnalysisResult :=
  match fastPathGen tokenBlacklist msg (extractUrls msg) with
  | some r => r
  | none =>
    match directStage agent.inoagents msg with
    | some name => mkCResult name (extractUrls msg)
    | none =>
      match pseudoStage agent.pseudonyms msg with
      | some fio => mkCResult fio (extractUrls msg)
      | none =>
        match smallAliasStage o msg with
        | some r => r
        | none =>
          match namePairStage agent.inoagents (pyNormalize msg) (localCandidates msg) with
          | some reg => mkCResult reg (extractUrls msg)
          | none =>
            if !(matchedRegs agent.inoagents (foundFios (aliasText o))).isEmpty then
              ⟨"CATEGORY_C".data,
               "Упоминание лица из реестра иноагентов: ".data ++
                 List.intercalate ", ".data
                   (matchedRegs agent.inoagents (foundFios (aliasText o))),
               !(extractUrls msg).isEmpty, extractUrls msg⟩
            else
              match fastPathGen tokenBlacklistNoIno msg (extractUrls msg) with
              | some r => r
              | none =>
                classifyStage agent.pseudonyms msg (extractUrls msg)
                  (localCandidates msg)
                  (matchedRegs agent.inoagents (foundFios (aliasText o))) o.classify

/-! ## `_load_inoagents`: pseudonym admission (lines 118–133)

`_load_inoagents` parses each line for full names and a pseudonym; when both
are present the pseudonym is admitted.  The claims under verification concern
the admission step, which we model over the extracted
`(pseudonym, first FIO)` pairs. -/

/-- The admission step for one extracted `(pseudo, first_fio)` pair
(lines 118–133): the normalized pseudonym is dropped when shorter than 3 or
deny-listed; otherwise it is stored, and when it contains a Latin letter a
derived approximate-transliteration alias is additionally stored whenever it
is nonempty (with no further checks). -/
def processPseudo (dict : List (List Char × List Char)) (pseudo firstFio : List Char) :
    List (List Char × List Char) :=
  if (pyNormalize pseudo).length < 3 ∨ pyNormalize pseudo ∈ pseudoBlacklist then dict
  else
    if (pyNormalize pseudo).any (fun c => isAsciiLower c || isAsciiUpper c) then
      (if (latToRuApprox (pyNormalize pseudo)).isEmpty then
        dict ++ [(pyNormalize pseudo, firstFio)]
       else
        dict ++ [(pyNormalize pseudo, firstFio),
                 (latToRuApprox (pyNormalize pseudo), firstFio)])
    else dict ++ [(pyNormalize pseudo, firstFio)]

def loadPseudonyms (entries : List (List Char × List Char)) :
    List (List Char × List Char) :=
  entries.foldl (fun d e => processPseudo d e.1 e.2) []

/-! ## SpamDetectorAgent (`agent_spam_detector.py`) -/

/-- The mutable state of `SpamDetectorAgent`: the bounded message window
(`self.history`, a `deque(maxlen=history_size)` of `{"text", "user_id"}`
entries) and the similarity threshold (default 0.85). -/
structure SpamState where
  history : List (List Char × Option Int)
  maxlen : Nat
  threshold : ℚ
deriving DecidableEq

/-- The `SpamDetectionResult` class. -/
structure SpamDetectionResult where
  is_spam : Bool
  similarity_score : ℚ
  similar_message : List Char
deriving DecidableEq

/-- `SpamDetectorAgent._calculate_similarity` (lines 29–33):
`SequenceMatcher(None, text1.lower(), text2.lower()).ratio()`. -/
def calculateSimilarity (t1 t2 : List Char) : ℚ :=
  simScore (lowerStr t1) (lowerStr t2)

/-- `SpamDetectorAgent.check_spam` (lines 42–70), as a state transformer:
scan the window for the entry of maximal similarity, flag spam iff the
maximum reaches the threshold.  The method never writes `self.history`, so
the state component of the result is the input state; the Python `except`
branch is unreachable since the body is total. -/
def spamFold (s : SpamState) (msg : List Char) : ℚ × List Char :=
  s.history.foldl (fun (acc : ℚ × List Char) old =>
    if acc.1 < calculateSimilarity msg old.1
    then (calculateSimilarity msg old.1, old.1) else acc) (0, [])

def checkSpam (s : SpamState) (msg : List Char) : SpamDetectionResult × SpamState :=
  (⟨decide (s.threshold ≤ (spamFold s msg).1),
    (spamFold s msg).1,
    (if s.threshold ≤ (spamFold s msg).1 then (spamFold s msg).2 else [])⟩, s)

/-- `SpamDetectorAgent.add_message` (lines 35–40): `deque.append` with
`maxlen` — the new entry goes to the end, and the oldest entry is evicted
when the window is full. -/
def addMessage (s : SpamState) (msg : List Char) (uid : Option Int) : SpamState :=
  ⟨if s.maxlen ≤ s.history.length then
     (s.history ++ [(msg, uid)]).drop (s.history.length + 1 - s.maxlen)
   else s.history ++ [(msg, uid)],
   s.maxlen, s.threshold⟩

/-! ## HeuristicAnalyzer (`test/analyzers/heuristic.py`) -/

/-- `danger_phrases` (lines 8–11): each regex is a literal word with a
leading `\b` and — except for `терроризм` — a trailing `\b`; the Bool flag
records whether the trailing boundary is present. -/
def dangerPhrases : List (List Char × Bool) :=
  [("убить".data, true), ("уничтожить".data, true), ("смерть".data, true),
   ("ненавижу".data, true), ("терроризм".data, false), ("взорвать".data, true),
   ("стрелять".data, true), ("война".data, true)]

/-- `re.search(r'\bword\b', text)` (or without the trailing `\b`). -/
def searchWordB (w : List Char) (trailB : Bool) (l : List Char) : Bool :=
  (List.range (l.length + 1)).any fun i =>
    matchAt w l i && boundaryAt l i && (!trailB || boundaryAt l (i + w.length))

/-- `aggressive_words` (lines 13–15), plain substring tests. -/
def aggressiveWords : List (List Char) :=
  ["ублюдок", "мудак", "тварь", "сволочь", "сука"].map String.data

/-- The two accumulation loops of `HeuristicAnalyzer.analyze` (lines 19–30):
0.1 per matched danger phrase, then 0.05 per aggressive word present. -/
def heuristicScoreRaw (text : List Char) : ℚ :=
  aggressiveWords.foldl
    (fun sc w => if isSub w (lowerStr text) then sc + 1 / 20 else sc)
    (dangerPhrases.foldl
      (fun sc p => if searchWordB p.1 p.2 (lowerStr text) then sc + 1 / 10 else sc) 0)

/-- `HeuristicAnalyzer.analyze` (lines 17–37): the length amplifier ×1.3
fires when the raw text has more than 20 whitespace-separated words and the
accumulated score exceeds 0.2; the result is `min(score, 1.0)`. -/
def heuristicAnalyze (text : List Char) : ℚ :=
  min (if 20 < (splitWs text).length ∧ 1 / 5 < heuristicScoreRaw text
       then heuristicScoreRaw text * (13 / 10)
       else heuristicScoreRaw text) 1

/-! ## ContextualMentionTracker (`test/services/context_tracker.py`) -/

/-- The `ContextualViolation` dataclass of `test/models/analysis.py`. -/
structure ContextualViolation where
  type : List Char
  domain : List Char
  reason : List Char
  risk_level : List Char
deriving DecidableEq

/-- `context_patterns` (lines 16–22): each regex is
`(alt₁|…)(.*?)(alt₁'|…)` — an alternation, a lazy same-line gap, and a
second alternation (`ссылк[ау]` expanded into its two words). -/
def contextPatterns : List (List (List Char) × List (List Char)) :=
  [ (["помните", "помнишь", "а помните", "а помнишь"].map String.data,
     ["сайт", "ресурс", "ссылка", "ссылку"].map String.data),
    (["тот", "тот самый"].map String.data, ["сайт", "ресурс"].map String.data),
    (["заблокировали", "запретили"].map String.data,
     ["сайт", "ресурс"].map String.data),
    (["ранее", "раньше"].map String.data, ["упоминал", "ссылался"].map String.data),
    (["который", "которую"].map String.data,
     ["заблокировали", "удалили"].map String.data) ]

/-- `re.search` of `(alts1)(.*?)(alts2)`: some word of `alts1` occurs,
followed later on the same line (`.` does not match a newline) by some word
of `alts2`. -/
def patternMatch (alts1 alts2 : List (List Char)) (l : List Char) : Bool :=
  (List.range (l.length + 1)).any fun i =>
    alts1.any fun w1 =>
      matchAt w1 l i &&
      ((List.range (l.length + 1)).any fun j =>
        decide (i + w1.length ≤ j) && alts2.any (fun w2 => matchAt w2 l j) &&
        ((l.drop (i + w1.length)).take (j - (i + w1.length))).all (fun c => c ≠ '\n'))

/-- `has_context` (lines 40–43). -/
def hasContextRef (l : List Char) : Bool :=
  contextPatterns.any (fun p => patternMatch p.1 p.2 l)

/-- The per-chat tracker state `banned_domains_mentioned`
(`defaultdict(set)`, modelled as a function from chat id to the chat's
domain list; absent chats map to `[]`). -/
structure CtxTracker where
  banned : Int → List (List Char)

/-- `domain.split('.')[0]` (line 50): the label before the first dot. -/
def domainStem (d : List Char) : List Char := d.takeWhile (fun c => c ≠ '.')

def ctxReason (d : List Char) : List Char :=
  "Контекстное упоминание запрещенного ресурса \"".data ++ d ++ "\"".data

def mkCtxViolation (d : List Char) : ContextualViolation :=
  ⟨"contextual_mention".data, d, ctxReason d, "high".data⟩

/-- `ContextualMentionTracker.check_contextual_reference` (lines 34–61). -/
def checkContextualReference (st : CtxTracker) (text : List Char) (chatId : Int) :
    List ContextualViolation :=
  if hasContextRef (lowerStr text) = false then []
  else
    (st.banned chatId).filterMap (fun d =>
      if 3 < (domainStem d).length ∧ isSub (domainStem d) (lowerStr text)
      then some (mkCtxViolation d) else none)

/-! ## MultiLevelAnalyzer (`test/analyzers/multi_level.py`) -/

/-- The `RKNViolation` dataclass (never constructed by the current source:
the AntiZapret call was removed from `_check_rkn_violations`). -/
structure RKNViolation where
  domain : List Char
  blocked : Bool
  decision : Option (List Char)
  reason : Option (List Char)
  risk_level : List Char
deriving DecidableEq

/-- The `AnalysisResult` dataclass of `test/models/analysis.py`.  The
`llm_analysis` dict is modelled by the pair of values the analyzer reads
from it: `toxicity_score` (default 0) and `risk_level` (default
`'medium'`). -/
structure MLAnalysisResult where
  risk_level : List Char
  final_score : ℚ
  rkn_violations : List RKNViolation
  contextual_violations : List ContextualViolation
  llm_analysis : Option (ℚ × List Char)
  actions : List (List Char)
  analysis_type : List Char
deriving DecidableEq

/-- `ANALYSIS_CONFIG` (`test/config.py` lines 20–26). -/
def fastCheckThreshold : ℚ := 3 / 10

def deepAnalysisThreshold : ℚ := 3 / 5

def criticalThreshold : ℚ := 4 / 5

/-- `_check_rkn_violations` (lines 54–63): the external AntiZapret request
was removed from the source; the method always returns an empty violation
list (the extracted domains are returned but never used). -/
def checkRkn (_text : List Char) : List RKNViolation := []

/-- `MultiLevelAnalyzer.analyze` (lines 18–52) with `_perform_deep_analysis`
(lines 65–84) inlined; `llm` is the pair of values read from the DeepSeek
toxicity response (`toxicity_score`, `risk_level`). -/
def mlAnalyze (st : CtxTracker) (llm : ℚ × List Char) (text : List Char)
    (chatId : Int) : MLAnalysisResult :=
  if (checkRkn text).isEmpty = false then
    ⟨"critical".data, 1, checkRkn text, [], none,
     ["delete_message".data, "warn_user".data, "report_to_admins".data],
     "rkn_check".data⟩
  else if (checkContextualReference st text chatId).isEmpty = false then
    ⟨"high".data, 4 / 5, [], checkContextualReference st text chatId, none,
     ["warn_user".data, "notify_moderators".data], "context_check".data⟩
  else if heuristicAnalyze text < fastCheckThreshold then
    ⟨"low".data, heuristicAnalyze text, [], [], none, [], "heuristic".data⟩
  else if deepAnalysisThreshold < heuristicAnalyze text then
    ⟨llm.2, max (heuristicAnalyze text) llm.1, [], [], some llm,
     (if criticalThreshold < max (heuristicAnalyze text) llm.1
      then ["warn_user".data] else []),
     "deep_llm".data⟩
  else ⟨"medium".data, heuristicAnalyze text, [], [], none, [], "heuristic".data⟩

/-! ## Generic helper lemmas -/

theorem foldl_add_count {α : Type} (c : ℚ) (f : α → Bool) :
    ∀ (l : List α) (init : ℚ),
      l.foldl (fun sc x => if f x then sc + c else sc) init
        = init + c * (l.filter f).length := by
  intro l
  induction l with
  | nil => intro init; simp
  | cons x xs ih =>
    intro init
    by_cases h : f x = true
    · rw [List.foldl_cons, if_pos h, ih, List.filter_cons_of_pos h, List.length_cons]
      push_cast
      ring
    · rw [List.foldl_cons, if_neg (by simp [h]), ih,
        List.filter_cons_of_neg (by simp [h])]

theorem filterMap_if_eq_filter_map {α β : Type} (p : α → Prop) [DecidablePred p]
    (g : α → β) :
    ∀ l : List α,
      (l.filterMap (fun x => if p x then some (g x) else none))
        = (l.filter (fun x => decide (p x))).map g := by
  intro l
  induction l with
  | nil => rfl
  | cons x xs ih =>
    by_cases h : p x
    · simp [List.filterMap_cons, h, ih]
    · simp [List.filterMap_cons, h, ih]

theorem foldl_max_ge_init (f : (List Char × Option Int) → ℚ) :
    ∀ (l : List (List Char × Option Int)) (q : ℚ),
      q ≤ l.foldl (fun q x => max q (f x)) q := by
  intro l
  induction l with
  | nil => intro q; exact le_refl _
  | cons x xs ih =>
    intro q
    simp only [List.foldl_cons]
    exact le_trans (le_max_left _ _) (ih _)

theorem foldl_max_ge_mem (f : (List Char × Option Int) → ℚ) :
    ∀ (l : List (List Char × Option Int)) (q : ℚ) (x : List Char × Option Int),
      x ∈ l → f x ≤ l.foldl (fun q x => max q (f x)) q := by
  intro l
  induction l with
  | nil => intro q x hx; cases hx
  | cons y ys ih =>
    intro q x hx
    simp only [List.foldl_cons]
    rcases List.mem_cons.mp hx with h | h
    · subst h
      exact le_trans (le_max_right _ _) (foldl_max_ge_init f ys _)
    · exact ih _ x h

theorem foldl_max_le (f : (List Char × Option Int) → ℚ) (c : ℚ) :
    ∀ (l : List (List Char × Option Int)) (q : ℚ),
      (∀ x ∈ l, f x ≤ c) → q ≤ c →
      l.foldl (fun q x => max q (f x)) q ≤ c := by
  intro l
  induction l with
  | nil => intro q _ hq; exact hq
  | cons y ys ih =>
    intro q hall hq
    simp only [List.foldl_cons]
    exact ih _ (fun x hx => hall x (List.mem_cons_of_mem _ hx))
      (max_le hq (hall y (List.mem_cons_self _ _)))

/-! ## Claim C7 — heuristic score formula -/

/-- Number of danger-phrase patterns that match the lowered text. -/
def dangerCount (tl : List Char) : Nat :=
  (dangerPhrases.filter (fun p => searchWordB p.1 p.2 tl)).length

/-- Number of aggressive words occurring in the lowered text. -/
def aggrCount (tl : List Char) : Nat :=
  (aggressiveWords.filter (fun w => isSub w tl)).length

/-- The score formula as the spec words it: 0.1 per matched danger phrase
plus 0.05 per aggressive word present. -/
def heuristicSpecScore (text : List Char) : ℚ :=
  (dangerCount (lowerStr text) : ℚ) * (1 / 10) + (aggrCount (lowerStr text) : ℚ) * (1 / 20)

theorem heuristicScoreRaw_eq (text : List Char) :
    heuristicScoreRaw text = heuristicSpecScore text := by
  unfold heuristicScoreRaw heuristicSpecScore dangerCount aggrCount
  rw [foldl_add_count, foldl_add_count]
  ring

/-- C7: For every text, the heuristic score equals the sum of 0.1 per
danger-phrase pattern matched plus 0.05 per aggressive word present,
multiplied by 1.3 exactly when the message has more than 20 words and the
base sum exceeds the minor threshold 0.2, and the returned value always
lies in [0, 1]. -/
theorem C7_heuristic_formula (text : List Char) :
    heuristicAnalyze text =
      min (if 20 < (splitWs text).length ∧ 1 / 5 < heuristicSpecScore text
           then heuristicSpecScore text * (13 / 10)
           else heuristicSpecScore text) 1 ∧
    0 ≤ heuristicAnalyze text ∧ heuristicAnalyze text ≤ 1 := by
  have he := heuristicScoreRaw_eq text
  have h0 : 0 ≤ heuristicSpecScore text := by
    unfold heuristicSpecScore
    positivity
  refine ⟨?_, ?_, ?_⟩
  · unfold heuristicAnalyze
    rw [he]
  · unfold heuristicAnalyze
    apply le_min
    · rw [he]
      split
      · nlinarith
      · exact h0
    · norm_num
  · exact min_le_right _ _

/-! ## Claim C6 — multi-level escalation policy -/

/-- C6: On a message where the registry/domain stage (always empty in this
source) and the contextual stage report nothing: a heuristic score below 0.3
gives risk `low` with the heuristic score and no LLM call (the result is
independent of the LLM oracle); a score above 0.6 calls the LLM and returns
the max of the two scores with the LLM's risk level; a score in between
gives `medium` with the heuristic score only. -/
theorem C6_escalation (st : CtxTracker) (llm llm2 : ℚ × List Char)
    (text : List Char) (chatId : Int)
    (hctx : checkContextualReference st text chatId = []) :
    (heuristicAnalyze text < 3 / 10 →
      mlAnalyze st llm text chatId
        = ⟨"low".data, heuristicAnalyze text, [], [], none, [], "heuristic".data⟩ ∧
      mlAnalyze st llm text chatId = mlAnalyze st llm2 text chatId) ∧
    (3 / 5 < heuristicAnalyze text →
      (mlAnalyze st llm text chatId).final_score
          = max (heuristicAnalyze text) llm.1 ∧
      (mlAnalyze st llm text chatId).risk_level = llm.2 ∧
      (mlAnalyze st llm text chatId).analysis_type = "deep_llm".data) ∧
    (3 / 10 ≤ heuristicAnalyze text → heuristicAnalyze text ≤ 3 / 5 →
      mlAnalyze st llm text chatId
        = ⟨"medium".data, heuristicAnalyze text, [], [], none, [], "heuristic".data⟩) := by
  unfold mlAnalyze checkRkn fastCheckThreshold deepAnalysisThreshold
  simp only [hctx, List.isEmpty_nil, Bool.true_eq_false, if_false]
  refine ⟨?_, ?_, ?_⟩
  · intro h
    rw [if_pos h]
    exact ⟨rfl, by rw [if_pos h]⟩
  · intro h
    rw [if_neg (by intro hc; linarith), if_pos h]
    exact ⟨rfl, rfl, rfl⟩
  · intro h1 h2
    rw [if_neg (by intro hc; linarith), if_neg (by intro hc; linarith)]

/-- Witness for C6: on a clean short message the heuristic score is below
0.3, so the analyzer answers `low` with the heuristic score and the result
does not depend on the LLM values. -/
theorem C6_witness :
    checkContextualReference ⟨fun _ => []⟩ "привет".data 5 = [] ∧
    heuristicAnalyze "привет".data < 3 / 10 ∧
    mlAnalyze ⟨fun _ => []⟩ (1, "high".data) "привет".data 5
      = ⟨"low".data, heuristicAnalyze "привет".data, [], [], none, [],
         "heuristic".data⟩ :=
  ⟨by decide, by decide,
    ((C6_escalation ⟨fun _ => []⟩ (1, "high".data) (0, "medium".data)
      "привет".data 5 (by decide)).1 (by decide)).1⟩

/-! ## Claim C8 — contextual mention tracker -/

/-- The claim's wording of the name-stem: "the domain minus its TLD"
(everything before the last dot; the domain itself when it has no dot). -/
def specStemMinusTld (d : List Char) : List Char :=
  if d.any (fun c => c = '.') then ((d.reverse.dropWhile (fun c => c ≠ '.')).drop 1).reverse
  else d

/-- The violation list predicted by the claim's wording (stem = domain minus
TLD). -/
def claimPredictedViolations (st : CtxTracker) (text : List Char) (chatId : Int) :
    List ContextualViolation :=
  if hasContextRef (lowerStr text) = false then []
  else
    (st.banned chatId).filterMap (fun d =>
      if 3 < (specStemMinusTld d).length ∧ isSub (specStemMinusTld d) (lowerStr text)
      then some (mkCtxViolation d) else none)

def ctxCounterTracker : CtxTracker :=
  ⟨fun c => if c = 1 then ["news.example.com".data] else []⟩

/-- C8 counterexample: the code keys violations on the label before the
*first* dot (`news`), not on "the domain minus its TLD" (`news.example`):
on a back-referencing message containing only `news`, the code reports a
violation while the claim's wording predicts none. -/
theorem C8_counterexample :
    checkContextualReference ctxCounterTracker "помните тот сайт news сегодня".data 1
      ≠ claimPredictedViolations ctxCounterTracker "помните тот сайт news сегодня".data 1 := by
  decide

/-- C8 (amended): `check_contextual_reference` returns the empty list
whenever no back-reference pattern matches the lowercased text; when a
pattern matches it returns exactly one violation for each tracked domain of
that chat whose name-stem — the label before the first dot, of length
greater than 3 — occurs literally in the lowercased text, and none for any
other domain. -/
theorem C8_contextual_reference (st : CtxTracker) (text : List Char) (chatId : Int) :
    (hasContextRef (lowerStr text) = false →
      checkContextualReference st text chatId = []) ∧
    (hasContextRef (lowerStr text) = true →
      checkContextualReference st text chatId
        = ((st.banned chatId).filter (fun d =>
            decide (3 < (domainStem d).length ∧
              isSub (domainStem d) (lowerStr text)))).map mkCtxViolation) := by
  constructor
  · intro h
    unfold checkContextualReference
    rw [h]
    simp
  · intro h
    unfold checkContextualReference
    rw [h]
    simp only [Bool.true_eq_false, if_false]
    exact filterMap_if_eq_filter_map _ _ _

/-- Witness for C8: a chat that tracked `example.com`; the later message
"помните тот сайт, example" contains a back-reference phrase and the stem,
so it yields exactly the one predicted violation; without the phrase the
result is empty. -/
theorem C8_witness :
    (hasContextRef (lowerStr "помните тот сайт, example".data) = true ∧
      checkContextualReference ⟨fun _ => ["example.com".data]⟩
          "помните тот сайт, example".data 7
        = [mkCtxViolation "example.com".data]) ∧
    (hasContextRef (lowerStr "просто слово example".data) = false ∧
      checkContextualReference ⟨fun _ => ["example.com".data]⟩
          "просто слово example".data 7 = []) := by
  constructor
  · refine ⟨by decide, ?_⟩
    rw [(C8_contextual_reference ⟨fun _ => ["example.com".data]⟩
      "помните тот сайт, example".data 7).2 (by decide)]
    decide
  · refine ⟨by decide, ?_⟩
    exact (C8_contextual_reference ⟨fun _ => ["example.com".data]⟩
      "просто слово example".data 7).1 (by decide)

/-! ## Claim C5 — spam detector -/

/-- The maximum similarity between the candidate and the window entries
(0 on an empty window), as the spec words it. -/
def maxWindowSim (s : SpamState) (m : List Char) : ℚ :=
  s.history.foldl (fun q old => max q (calculateSimilarity m old.1)) 0

theorem spamFold_fst (s : SpamState) (m : List Char) :
    (spamFold s m).1 = maxWindowSim s m := by
  unfold spamFold maxWindowSim
  suffices h : ∀ (l : List (List Char × Option Int)) (acc : ℚ × List Char),
      (l.foldl (fun (acc : ℚ × List Char) old =>
        if acc.1 < calculateSimilarity m old.1
        then (calculateSimilarity m old.1, old.1) else acc) acc).1
        = l.foldl (fun q old => max q (calculateSimilarity m old.1)) acc.1 by
    exact h s.history (0, [])
  intro l
  induction l with
  | nil => intro acc; rfl
  | cons x xs ih =>
    intro acc
    simp only [List.foldl_cons]
    rw [ih]
    congr 1
    by_cases h : acc.1 < calculateSimilarity m x.1
    · rw [if_pos h]
      exact (max_eq_right (le_of_lt h)).symm
    · rw [if_neg h]
      exact (max_eq_left (not_lt.mp h)).symm

/-- C5 counterexample: the similarity ratio reported by
`_calculate_similarity` (difflib's `SequenceMatcher.ratio`) is *not*
symmetric: on `"tide"`/`"diet"` the two orders give 1/4 and 1/2. -/
theorem C5_counterexample :
    calculateSimilarity "tide".data "diet".data
      ≠ calculateSimilarity "diet".data "tide".data := by
  decide

/-- C5 (amended): `check_spam` flags spam iff the maximum case-insensitive
similarity between the message and the window entries reaches the threshold,
and reports that maximum; a text identical to a window entry yields
similarity 1.0; the ratio equals 1.0 exactly when the two lowercased strings
are identical (but it is not symmetric in general — see the
counterexample); an empty window yields similarity 0.0 and, at the
configured default threshold 0.85, `is_spam = false`. -/
theorem C5_check_spam (s : SpamState) (m : List Char) :
    ((checkSpam s m).1.is_spam = true ↔ s.threshold ≤ maxWindowSim s m) ∧
    (checkSpam s m).1.similarity_score = maxWindowSim s m ∧
    (∀ u : Option Int, (m, u) ∈ s.history →
      (checkSpam s m).1.similarity_score = 1) ∧
    (s.history = [] →
      (checkSpam s m).1.similarity_score = 0 ∧
      (s.threshold = 17 / 20 → (checkSpam s m).1.is_spam = false)) ∧
    (∀ a b : List Char, calculateSimilarity a b = 1 ↔ lowerStr a = lowerStr b) := by
  have hfst := spamFold_fst s m
  refine ⟨?_, ?_, ?_, ?_, ?_⟩
  · unfold checkSpam
    simp only [hfst]
    exact decide_eq_true_iff
  · unfold checkSpam
    simp only [hfst]
  · intro u hu
    unfold checkSpam
    simp only [hfst]
    have hself : calculateSimilarity m m = 1 := by
      unfold calculateSimilarity
      exact simScore_self _
    have h1 : calculateSimilarity m m ≤ maxWindowSim s m :=
      foldl_max_ge_mem (fun old => calculateSimilarity m old.1) s.history 0 (m, u) hu
    have hle : maxWindowSim s m ≤ 1 :=
      foldl_max_le (fun old => calculateSimilarity m old.1) 1 s.history 0
        (fun x _ => simScore_le_one _ _) (by norm_num)
    rw [hself] at h1
    linarith
  · intro hnil
    have hmax : maxWindowSim s m = 0 := by
      unfold maxWindowSim
      rw [hnil]
      rfl
    constructor
    · unfold checkSpam
      simp only [hfst, hmax]
    · intro hth
      unfold checkSpam
      simp only [hfst, hmax, hth]
      exact decide_eq_false (by norm_num)
  · intro a b
    unfold calculateSimilarity
    exact simScore_eq_one_iff _ _

/-- Witness for C5: a window holding "привет мир" with the default 0.85
threshold flags the identical (case-insensitively) resubmission with
similarity 1. -/
theorem C5_witness :
    (("привет мир".data, (none : Option Int))
        ∈ (⟨[("привет мир".data, none)], 10, 17 / 20⟩ : SpamState).history ∧
      (checkSpam ⟨[("привет мир".data, none)], 10, 17 / 20⟩
          "привет мир".data).1.similarity_score = 1) ∧
    ((⟨[], 10, 17 / 20⟩ : SpamState).history = [] ∧
      (checkSpam (⟨[], 10, 17 / 20⟩ : SpamState) "что угодно".data).1.similarity_score = 0 ∧
      (checkSpam (⟨[], 10, 17 / 20⟩ : SpamState) "что угодно".data).1.is_spam = false) := by
  constructor
  · exact ⟨by decide,
      (C5_check_spam ⟨[("привет мир".data, none)], 10, 17 / 20⟩
        "привет мир".data).2.2.1 none (by decide)⟩
  · refine ⟨rfl, ?_, ?_⟩
    · exact ((C5_check_spam (⟨[], 10, 17 / 20⟩ : SpamState) "что угодно".data).2.2.2.1
        rfl).1
    · exact ((C5_check_spam (⟨[], 10, 17 / 20⟩ : SpamState) "что угодно".data).2.2.2.1
        rfl).2 rfl

/-! ## Claim C10 — frame property of the spam window -/

/-- C10 counterexample: at capacity, `add_message` does not merely append —
the deque evicts the oldest entry (window `["a"]` with `maxlen = 1` becomes
`["b"]`, not `["a", "b"]`). -/
theorem C10_counterexample :
    (addMessage ⟨[("a".data, none)], 1, 17 / 20⟩ "b".data none).history
      ≠ (⟨[("a".data, none)], 1, 17 / 20⟩ : SpamState).history
          ++ [("b".data, none)] := by
  decide

/-- C10 (amended): `check_spam` never changes the window (its resulting
state is the input state, entries and order included); `add_message` appends
exactly one entry at the end and, when the window is at capacity, also
evicts from the front (strict FIFO): below capacity the new window is the
old one plus the entry; at capacity it is the appended window with the
overflow dropped from the front, and for a positive capacity the appended
entry is always last. -/
theorem C10_frame (s : SpamState) (m : List Char) (u : Option Int) :
    (checkSpam s m).2 = s ∧
    (s.history.length < s.maxlen →
      (addMessage s m u).history = s.history ++ [(m, u)]) ∧
    (s.maxlen ≤ s.history.length →
      (addMessage s m u).history
        = (s.history ++ [(m, u)]).drop (s.history.length + 1 - s.maxlen)) ∧
    (0 < s.maxlen → ∃ rest, (addMessage s m u).history = rest ++ [(m, u)]) := by
  refine ⟨rfl, ?_, ?_, ?_⟩
  · intro h
    unfold addMessage
    rw [if_neg (by omega)]
  · intro h
    unfold addMessage
    rw [if_pos h]
  · intro hpos
    unfold addMessage
    by_cases h : s.maxlen ≤ s.history.length
    · rw [if_pos h]
      refine ⟨(s.history.drop (s.history.length + 1 - s.maxlen)), ?_⟩
      rw [List.drop_append_of_le_length (by omega)]
    · rw [if_neg h]
      exact ⟨s.history, rfl⟩

/-- Witness for C10: a below-capacity append and an at-capacity append. -/
theorem C10_witness :
    ((⟨[("a".data, none)], 2, 17 / 20⟩ : SpamState).history.length < 2 ∧
      (addMessage ⟨[("a".data, none)], 2, 17 / 20⟩ "b".data none).history
        = [("a".data, none), ("b".data, none)]) ∧
    (2 ≤ (⟨[("a".data, none), ("b".data, none)], 2, 17 / 20⟩ : SpamState).history.length ∧
      (addMessage ⟨[("a".data, none), ("b".data, none)], 2, 17 / 20⟩ "c".data none).history
        = [("b".data, none), ("c".data, none)]) := by
  constructor
  · refine ⟨by decide, ?_⟩
    exact (C10_frame ⟨[("a".data, none)], 2, 17 / 20⟩ "b".data none).2.1 (by decide)
  · refine ⟨by decide, ?_⟩
    rw [(C10_frame ⟨[("a".data, none), ("b".data, none)], 2, 17 / 20⟩
      "c".data none).2.2.1 (by decide)]
    decide

/-! ## Claim C9 — alias admission invariant of the registry loader -/

/-- The invariant C9 claims for every admitted alias key. -/
def aliasInvariant (kv : List Char × List Char) : Prop :=
  3 ≤ kv.1.length ∧ kv.1 ∉ pseudoBlacklist

/-- A derived approximate-transliteration alias: generated from an admitted
pseudonym of `entries` that contains a Latin letter, checked only for being
nonempty. -/
def derivedAlias (entries : List (List Char × List Char))
    (kv : List Char × List Char) : Prop :=
  kv.1 ≠ [] ∧ ∃ p f, (p, f) ∈ entries ∧ kv.1 = latToRuApprox (pyNormalize p) ∧
    kv.2 = f ∧ 3 ≤ (pyNormalize p).length ∧ pyNormalize p ∉ pseudoBlacklist

/-- C9 counterexample: the derived transliteration alias is admitted with no
length or deny-list check.  The pseudonym `mat` derives the alias `мат`,
which is on the deny-list; the pseudonym `xxxx` derives the alias `кс` of
normalized length 2 < 3. -/
theorem C9_counterexample :
    ("мат".data, "иванов иван".data)
        ∈ loadPseudonyms [("mat".data, "иванов иван".data)] ∧
    "мат".data ∈ pseudoBlacklist ∧
    ("кс".data, "иванов иван".data)
        ∈ loadPseudonyms [("xxxx".data, "иванов иван".data)] ∧
    ("кс".data).length < 3 := by
  decide

theorem processPseudo_mem {dict : List (List Char × List Char)}
    {pseudo fio : List Char} {kv : List Char × List Char}
    (h : kv ∈ processPseudo dict pseudo fio) :
    kv ∈ dict ∨
    (kv = (pyNormalize pseudo, fio) ∧ 3 ≤ (pyNormalize pseudo).length ∧
      pyNormalize pseudo ∉ pseudoBlacklist) ∨
    (kv = (latToRuApprox (pyNormalize pseudo), fio) ∧ kv.1 ≠ [] ∧
      3 ≤ (pyNormalize pseudo).length ∧ pyNormalize pseudo ∉ pseudoBlacklist) := by
  unfold processPseudo at h
  split at h
  · exact Or.inl h
  · rename_i hcond
    push_neg at hcond
    obtain ⟨hlen, hbl⟩ := hcond
    split at h
    · split at h
      · rcases List.mem_append.mp h with h2 | h2
        · exact Or.inl h2
        · refine Or.inr (Or.inl ⟨?_, by omega, hbl⟩)
          simpa using h2
      · rename_i hne
        rcases List.mem_append.mp h with h2 | h2
        · exact Or.inl h2
        · simp only [List.mem_cons, List.mem_singleton] at h2
          rcases h2 with h3 | h3 | h3
          · exact Or.inr (Or.inl ⟨h3, by omega, hbl⟩)
          · refine Or.inr (Or.inr ⟨h3, ?_, by omega, hbl⟩)
            rw [h3]
            simpa using hne
          · cases h3
    · rcases List.mem_append.mp h with h2 | h2
      · exact Or.inl h2
      · refine Or.inr (Or.inl ⟨?_, by omega, hbl⟩)
        simpa using h2

theorem loadPseudonyms_aux (E : List (List Char × List Char)) :
    ∀ (entries : List (List Char × List Char)) (dict : List (List Char × List Char)),
      (∀ e ∈ entries, e ∈ E) →
      (∀ kv ∈ dict, aliasInvariant kv ∨ derivedAlias E kv) →
      ∀ kv ∈ entries.foldl (fun d e => processPseudo d e.1 e.2) dict,
        aliasInvariant kv ∨ derivedAlias E kv := by
  intro entries
  induction entries with
  | nil => intro dict _ hd kv hkv; exact hd kv hkv
  | cons e es ih =>
    intro dict hmem hd kv hkv
    simp only [List.foldl_cons] at hkv
    refine ih _ (fun x hx => hmem x (List.mem_cons_of_mem _ hx)) ?_ kv hkv
    intro kv2 hkv2
    rcases processPseudo_mem hkv2 with h | ⟨heq, hlen, hbl⟩ | ⟨heq, hne, hlen, hbl⟩
    · exact hd kv2 h
    · left
      rw [heq]
      exact ⟨hlen, hbl⟩
    · right
      rw [heq]
      exact ⟨by rw [heq] at hne; exact hne, e.1, e.2,
        hmem e (List.mem_cons_self _ _), rfl, rfl, hlen, hbl⟩

/-- C9 (amended): every alias key admitted into the pseudonym mapping either
satisfies the claimed invariant (normalized length ≥ 3 and not deny-listed —
this is guaranteed for the directly admitted pseudonyms), or is a derived
approximate-transliteration alias, which is checked only for being nonempty
and may violate both conditions (see the counterexample). -/
theorem C9_alias_admission (entries : List (List Char × List Char))
    (kv : List Char × List Char) (h : kv ∈ loadPseudonyms entries) :
    aliasInvariant kv ∨ derivedAlias entries kv :=
  loadPseudonyms_aux entries entries [] (fun _ he => he)
    (fun _ h2 => absurd h2 (List.not_mem_nil _)) kv h

/-- Witness for C9. -/
theorem C9_witness :
    ("mat".data, "иванов иван".data)
        ∈ loadPseudonyms [("mat".data, "иванов иван".data)] ∧
    (aliasInvariant ("mat".data, "иванов иван".data) ∨
      derivedAlias [("mat".data, "иванов иван".data)]
        ("mat".data, "иванов иван".data)) :=
  ⟨by decide, C9_alias_admission [("mat".data, "иванов иван".data)]
    ("mat".data, "иванов иван".data) (by decide)⟩

/-! ## Helper lemmas for the `analyze_message` claims -/

theorem find?_some_of_mem {α : Type} {p : α → Bool} :
    ∀ {l : List α} {x : α}, x ∈ l → p x = true →
      ∃ y, l.find? p = some y ∧ p y = true := by
  intro l
  induction l with
  | nil => intro x hx; intro _; cases hx
  | cons a as ih =>
    intro x hx hp
    by_cases ha : p a = true
    · exact ⟨a, List.find?_cons_of_pos _ ha, ha⟩
    · rcases List.mem_cons.mp hx with h | h
      · subst h; exact absurd hp ha
      · obtain ⟨y, hy, hpy⟩ := ih h hp
        refine ⟨y, ?_, hpy⟩
        rw [List.find?_cons_of_neg _ (by simpa using ha)]
        exact hy

theorem findSome?_none_of_all {α β : Type} {f : α → Option β} :
    ∀ {l : List α}, (∀ x ∈ l, f x = none) → l.findSome? f = none := by
  intro l
  induction l with
  | nil => intro _; rfl
  | cons a as ih =>
    intro h
    rw [List.findSome?_cons, h a (List.mem_cons_self _ _)]
    exact ih (fun x hx => h x (List.mem_cons_of_mem _ hx))

/-- The single-token fast path does not fire when the message has a
different number of tokens, or its (unique) token is neither blacklisted nor
short. -/
theorem fastPathGen_eq_none {bl : List (List Char)} {msg : List Char}
    {links : List (List Char)}
    (h : ∀ t, tokenizeMsg msg = [t] →
      ¬(pyNormalize t ∈ bl ∨ (pyNormalize t).length < 3)) :
    fastPathGen bl msg links = none := by
  unfold fastPathGen
  cases h2 : tokenizeMsg msg with
  | nil => rfl
  | cons t ts =>
    cases ts with
    | nil =>
      unfold fastPathCore
      dsimp only
      rw [if_neg (h t h2)]
    | cons a as => rfl

theorem fastPathGen_none_of_multi {bl : List (List Char)} {msg : List Char}
    {links : List (List Char)} (h : 2 ≤ (tokenizeMsg msg).length) :
    fastPathGen bl msg links = none :=
  fastPathGen_eq_none (fun t ht => by rw [ht] at h; simp at h)

theorem blacklistNoIno_subset :
    ∀ x ∈ tokenBlacklistNoIno, x ∈ tokenBlacklist := by decide

/-- If the first fast path did not fire, neither does the second one (its
blacklist is a subset of the first one's). -/
theorem fastPathGen_noIno_none {msg : List Char} {links : List (List Char)}
    (h : fastPathGen tokenBlacklist msg links = none) :
    fastPathGen tokenBlacklistNoIno msg links = none := by
  apply fastPathGen_eq_none
  intro t ht hcond
  unfold fastPathGen at h
  rw [ht] at h
  unfold fastPathCore at h
  dsimp only at h
  rw [if_pos (by
    rcases hcond with hbl | hlen
    · exact Or.inl (blacklistNoIno_subset _ hbl)
    · exact Or.inr hlen)] at h
  split at h <;> cases h

theorem smallAliasStage_none (o : LLMOracle) (msg : List Char) :
    smallAliasStage o msg = none := by
  unfold smallAliasStage
  cases smallAliasLoop o.aliasSmall (tokenizeMsg msg) <;> rfl

/-! ## Claim C1 — direct two-token registry match -/

/-- C1: If an entry with at least two tokens has at least two of its tokens
among the message's (normalized, whole-word) tokens and the first two tokens
occur in order at word boundaries in the normalized text, and the message
has more than one token (so the fast path does not apply), then
`analyze_message` returns `CATEGORY_C` with the matched canonical name in
the reason, regardless of the LLM oracle (short-circuiting all later
stages); and an entry with fewer than two tokens is never returned by the
direct-match stage. -/
theorem C1_direct_registry (agent : Moderator) (o : LLMOracle) (msg E : List Char)
    (hTok : 2 ≤ (tokenizeMsg msg).length)
    (hE : E ∈ agent.inoagents)
    (hHit : directHit (msgTokenSet msg) (pyNormalize msg) E = true) :
    (∃ F, directStage agent.inoagents msg = some F ∧
      directHit (msgTokenSet msg) (pyNormalize msg) F = true ∧
      2 ≤ (splitWs F).length ∧
      analyzeMessage agent o msg = mkCResult F (extractUrls msg)) ∧
    (∀ (agents : List (List Char)) (m2 F2 : List Char),
      (splitWs F2).length < 2 → directStage agents m2 ≠ some F2) := by
  constructor
  · obtain ⟨F, hF, hpF⟩ := find?_some_of_mem hE hHit
    have hdir : directStage agent.inoagents msg = some F := hF
    have hlen2 : 2 ≤ (splitWs F).length := by
      have h2 := hpF
      unfold directHit at h2
      simp only [Bool.and_eq_true, decide_eq_true_eq] at h2
      exact h2.1.1
    refine ⟨F, hdir, hpF, hlen2, ?_⟩
    have hfast : fastPathGen tokenBlacklist msg (extractUrls msg) = none :=
      fastPathGen_none_of_multi hTok
    simp only [analyzeMessage, hfast, hdir]
  · intro agents m2 F2 hlen heq
    have hp : directHit (msgTokenSet m2) (pyNormalize m2) F2 = true :=
      List.find?_some heq
    unfold directHit at hp
    simp only [Bool.and_eq_true, decide_eq_true_eq] at hp
    omega

/-- Witness for C1: registry entry "иванов иван", message containing both
tokens in order; the pipeline reports the mention with a failing LLM. -/
theorem C1_witness :
    2 ≤ (tokenizeMsg "тут был иванов потом иван".data).length ∧
    "иванов иван".data ∈ (⟨["иванов иван".data], []⟩ : Moderator).inoagents ∧
    directHit (msgTokenSet "тут был иванов потом иван".data)
      (pyNormalize "тут был иванов потом иван".data) "иванов иван".data = true ∧
    ((∃ F, directStage (⟨["иванов иван".data], []⟩ : Moderator).inoagents
        "тут был иванов потом иван".data = some F ∧
      directHit (msgTokenSet "тут был иванов потом иван".data)
        (pyNormalize "тут был иванов потом иван".data) F = true ∧
      2 ≤ (splitWs F).length ∧
      analyzeMessage ⟨["иванов иван".data], []⟩
        ⟨fun _ => Except.error (), Except.error (), Except.error ()⟩
        "тут был иванов потом иван".data = mkCResult F
          (extractUrls "тут был иванов потом иван".data)) ∧
    (∀ (agents : List (List Char)) (m2 F2 : List Char),
      (splitWs F2).length < 2 → directStage agents m2 ≠ some F2)) :=
  ⟨by decide, by decide, by decide,
    C1_direct_registry ⟨["иванов иван".data], []⟩
      ⟨fun _ => Except.error (), Except.error (), Except.error ()⟩
      "тут был иванов потом иван".data "иванов иван".data
      (by decide) (by decide) (by decide)⟩

/-! ## Claim C3 — fallback classification when the LLM call fails -/

/-- C3: When the final classification call fails and no earlier stage fired,
`analyze_message` still returns the well-formed local fallback result: a
threat-word occurrence in the normalized text gives `CATEGORY_A`, otherwise
a rude-word occurrence gives `CATEGORY_B`, otherwise `CLEAN`; the failure is
never propagated. -/
theorem C3_llm_failure_fallback (agent : Moderator) (o : LLMOracle) (msg : List Char)
    (h1 : fastPathGen tokenBlacklist msg (extractUrls msg) = none)
    (h2 : directStage agent.inoagents msg = none)
    (h3 : pseudoStage agent.pseudonyms msg = none)
    (h4 : namePairStage agent.inoagents (pyNormalize msg) (localCandidates msg) = none)
    (h5 : matchedRegs agent.inoagents (foundFios (aliasText o)) = [])
    (h6 : o.classify = Except.error ()) :
    analyzeMessage agent o msg = fallbackClassify (pyNormalize msg) (extractUrls msg) ∧
    ((∃ w ∈ threatWords, isSub w (pyNormalize msg) = true) →
      (analyzeMessage agent o msg).category = "CATEGORY_A".data) ∧
    ((∀ w ∈ threatWords, isSub w (pyNormalize msg) = false) →
      (∃ w ∈ rudeWords, isSub w (pyNormalize msg) = true) →
      (analyzeMessage agent o msg).category = "CATEGORY_B".data) ∧
    ((∀ w ∈ threatWords, isSub w (pyNormalize msg) = false) →
      (∀ w ∈ rudeWords, isSub w (pyNormalize msg) = false) →
      (analyzeMessage agent o msg).category = "CLEAN".data) := by
  have hfast2 := fastPathGen_noIno_none h1
  have hmain : analyzeMessage agent o msg
      = fallbackClassify (pyNormalize msg) (extractUrls msg) := by
    simp only [analyzeMessage, h1, h2, h3, smallAliasStage_none, h4, h5, hfast2,
      List.isEmpty_nil, Bool.not_true, Bool.false_eq_true, if_false, classifyStage, h6]
  refine ⟨hmain, ?_, ?_, ?_⟩
  · intro ⟨w, hw, hsub⟩
    rw [hmain]
    unfold fallbackClassify
    rw [if_pos (List.any_eq_true.mpr ⟨w, hw, hsub⟩)]
  · intro hnone ⟨w, hw, hsub⟩
    rw [hmain]
    unfold fallbackClassify
    rw [if_neg (by
        rw [List.any_eq_true]
        rintro ⟨x, hx, hsx⟩
        rw [hnone x hx] at hsx
        cases hsx),
      if_pos (List.any_eq_true.mpr ⟨w, hw, hsub⟩)]
  · intro hnone1 hnone2
    rw [hmain]
    unfold fallbackClassify
    rw [if_neg (by
        rw [List.any_eq_true]
        rintro ⟨x, hx, hsx⟩
        rw [hnone1 x hx] at hsx
        cases hsx),
      if_neg (by
        rw [List.any_eq_true]
        rintro ⟨x, hx, hsx⟩
        rw [hnone2 x hx] at hsx
        cases hsx)]

/-- Witness for C3: with an empty registry and a failing classification
call, the message "я тебя убью" (containing the threat marker `убью`) gets
`CATEGORY_A` from the local fallback. -/
theorem C3_witness :
    fastPathGen tokenBlacklist "я тебя убью".data
        (extractUrls "я тебя убью".data) = none ∧
    (∃ w ∈ threatWords, isSub w (pyNormalize "я тебя убью".data) = true) ∧
    (analyzeMessage ⟨[], []⟩
      ⟨fun _ => Except.error (), Except.error (), Except.error ()⟩
      "я тебя убью".data).category = "CATEGORY_A".data :=
  ⟨by decide, by decide,
    (C3_llm_failure_fallback ⟨[], []⟩
      ⟨fun _ => Except.error (), Except.error (), Except.error ()⟩
      "я тебя убью".data (by decide) (by decide) (by decide) (by decide)
      (by decide) rfl).2.1 (by decide)⟩

/-! ## Claim C2 — uncorroborated LLM CATEGORY_C is downgraded -/

/-- C2: If the classification response parses to `CATEGORY_C` but the
message carries no local evidence — no registry match from the LLM alias
step, no local name-pair candidate, and no token that is a known pseudonym —
then the final category is downgraded to `CLEAN`. -/
theorem C2_downgrade_to_clean (agent : Moderator) (o : LLMOracle)
    (msg resp : List Char)
    (h1 : fastPathGen tokenBlacklist msg (extractUrls msg) = none)
    (h2 : directStage agent.inoagents msg = none)
    (h3 : pseudoStage agent.pseudonyms msg = none)
    (h4 : localCandidates msg = [])
    (h5 : matchedRegs agent.inoagents (foundFios (aliasText o)) = [])
    (h6 : o.classify = Except.ok resp)
    (h7 : parseCategory resp = "CATEGORY_C".data)
    (h8 : ∀ t ∈ tokenizeMsg msg, dictLookup agent.pseudonyms (pyNormalize t) = none) :
    (analyzeMessage agent o msg).category = "CLEAN".data := by
  have hfast2 := fastPathGen_noIno_none h1
  have hnp : namePairStage agent.inoagents (pyNormalize msg) [] = none := rfl
  have hps : hasLocalPseudonym agent.pseudonyms msg = false := by
    unfold hasLocalPseudonym
    rw [List.any_eq_false]
    intro t ht
    rw [h8 t ht]
    simp
  simp only [analyzeMessage, h1, h2, h3, smallAliasStage_none, h4, hnp, h5, hfast2,
    List.isEmpty_nil, Bool.not_true, Bool.false_eq_true, if_false, classifyStage, h6,
    h7, hps]
  rw [if_pos ⟨trivial, trivial, trivial, trivial⟩]

/-- Witness for C2: empty registry, the two-token message `ты иноагент`
(which produces no candidates: `ты` is a pronoun), and a response parsing to
`CATEGORY_C`; the verdict is downgraded to `CLEAN`. -/
theorem C2_witness :
    parseCategory "КАТЕГОРИЯ: CATEGORY_C\nПРИЧИНА: тест".data = "CATEGORY_C".data ∧
    localCandidates "ты иноагент".data = [] ∧
    (analyzeMessage ⟨[], []⟩
      ⟨fun _ => Except.error (), Except.error (),
        Except.ok "КАТЕГОРИЯ: CATEGORY_C\nПРИЧИНА: тест".data⟩
      "ты иноагент".data).category = "CLEAN".data :=
  ⟨by decide, by decide,
    C2_downgrade_to_clean ⟨[], []⟩
      ⟨fun _ => Except.error (), Except.error (),
        Except.ok "КАТЕГОРИЯ: CATEGORY_C\nПРИЧИНА: тест".data⟩
      "ты иноагент".data "КАТЕГОРИЯ: CATEGORY_C\nПРИЧИНА: тест".data
      (by decide) (by decide) (by decide) (by decide) (by decide) rfl
      (by decide) (by decide)⟩

/-! ## Claim C4 — fuzzy transliterated alias match -/

/-- C4: A message token of normalized length ≥ 4, not stop-listed and not an
exact pseudonym hit, whose Latin transliteration has similarity ratio ≥ 0.80
to the Latin projection (of length ≥ 4) of a registered alias — the first
such hit among the tokens and aliases — makes `analyze_message` return
`CATEGORY_C` resolving to that alias's canonical entry, for any LLM oracle.
Moreover an alias pair of ratio < 0.80 (in particular 0.60) never passes
the fuzzy check, and an alias whose Latin projection is shorter than 4 is
never fuzzy-matched. -/
theorem C4_fuzzy_alias (agent : Moderator) (o : LLMOracle)
    (msg t p fio : List Char) (pre post : List (List Char))
    (pre2 post2 : List (List Char × List Char))
    (hsplit : tokenizeMsg msg = pre ++ t :: post)
    (hpre : ∀ u ∈ pre, pseudoTokenStep agent.pseudonyms u = none)
    (hlen : 4 ≤ (pyNormalize t).length)
    (hbl : pyNormalize t ∉ tokenBlacklist)
    (hexact : dictLookup agent.pseudonyms (pyNormalize t) = none)
    (hps : agent.pseudonyms = pre2 ++ (p, fio) :: post2)
    (hpre2 : ∀ q ∈ pre2, fuzzyHit (ruToLat (pyNormalize t)) q.1 = false)
    (hfuzzy : fuzzyHit (ruToLat (pyNormalize t)) p = true)
    (hdir : directStage agent.inoagents msg = none) :
    analyzeMessage agent o msg = mkCResult fio (extractUrls msg) ∧
    (∀ tok al : List Char,
      simScore (ruToLat (pyNormalize tok)) (asciiProj al) < 4 / 5 →
      fuzzyHit (ruToLat (pyNormalize tok)) al = false) ∧
    (∀ tLat al : List Char, (asciiProj al).length < 4 → fuzzyHit tLat al = false) := by
  refine ⟨?_, ?_, ?_⟩
  · have hfast : fastPathGen tokenBlacklist msg (extractUrls msg) = none := by
      apply fastPathGen_eq_none
      intro u hu
      rw [hsplit] at hu
      have hlen1 : pre.length + (post.length + 1) = 1 := by
        have h := congrArg List.length hu
        simpa using h
      have hpre0 : pre = [] := List.eq_nil_of_length_eq_zero (by omega)
      have hpost0 : post = [] := List.eq_nil_of_length_eq_zero (by omega)
      subst hpre0
      subst hpost0
      simp only [List.nil_append, List.cons.injEq, and_true] at hu
      subst hu
      push_neg
      exact ⟨hbl, by omega⟩
    have hstep : pseudoTokenStep agent.pseudonyms t = some fio := by
      unfold pseudoTokenStep
      rw [if_neg (by push_neg; exact ⟨by omega, hbl⟩), hexact]
      dsimp only
      rw [if_neg (by omega), hps, List.find?_append,
        List.find?_eq_none.mpr (fun q hq => by simp [hpre2 q hq])]
      have hconsfind : List.find? (fun kv => fuzzyHit (ruToLat (pyNormalize t)) kv.1)
          ((p, fio) :: post2) = some (p, fio) :=
        List.find?_cons_of_pos _ hfuzzy
      rw [hconsfind]
      rfl
    have hstage : pseudoStage agent.pseudonyms msg = some fio := by
      unfold pseudoStage
      rw [hsplit, List.findSome?_append, findSome?_none_of_all hpre,
        List.findSome?_cons, hstep]
      rfl
    simp only [analyzeMessage, hfast, hdir, hstage]
  · intro tok al h
    unfold fuzzyHit
    rw [decide_eq_false (not_le.mpr h)]
    simp
  · intro tLat al h
    unfold fuzzyHit
    rw [decide_eq_false (by omega)]
    simp

set_option maxRecDepth 16000 in
/-- Witness for C4: alias `sobaka` → `пупкин василий`; the Cyrillic token
`собака` transliterates to `sobaka` (ratio 1.0 ≥ 0.80) and resolves to the
canonical entry. -/
theorem C4_witness :
    tokenizeMsg "собака".data = [] ++ "собака".data :: [] ∧
    fuzzyHit (ruToLat (pyNormalize "собака".data)) "sobaka".data = true ∧
    analyzeMessage ⟨[], [("sobaka".data, "пупкин василий".data)]⟩
        ⟨fun _ => Except.error (), Except.error (), Except.error ()⟩
        "собака".data
      = mkCResult "пупкин василий".data (extractUrls "собака".data) :=
  ⟨by decide, by decide,
    (C4_fuzzy_alias ⟨[], [("sobaka".data, "пупкин василий".data)]⟩
      ⟨fun _ => Except.error (), Except.error (), Except.error ()⟩
      "собака".data "собака".data "sobaka".data "пупкин василий".data [] [] [] []
      (by decide) (by decide) (by decide) (by decide) (by decide) rfl
      (by decide) (by decide) (by decide)).1⟩

end Soloma
